import Mathlib

/-!
# Verification of the greenhouse-jobs-scrapper ingestion pipeline

Shallow embedding of the ingestion pipeline implemented in
`functions/index.js` (Node 20, Firebase Functions Gen2).  Pure helpers of
the JavaScript source are translated into executable Lean functions;
stateful parts (the Firestore job store, the run record) are modelled by
explicit state passing over association lists; fallible operations return
`Except`.  JavaScript builtins that the source calls (`String.prototype`
methods, `Date.parse`, `Number`) are either modelled for the relevant
(ASCII / decimal) fragment or taken as function parameters, as documented
on each definition.

Array constants that `functions/index.js` elides with the comment
`/* ... keep your existing array ... */` (`US_STATE_CODES`, `US_KEYWORDS`,
`MAJOR_US_CITIES`) are taken from the earlier revision of the same file
kept in the repository, which spells them out.  The remote-exclusion list
`REMOTE_EXCLUDE_SUBSTRINGS` is configuration that appears nowhere in the
repository, so every development below is parameterised over it.
-/

/-! ## JavaScript string primitives (ASCII fragment) -/

/-- Characters treated as whitespace by JavaScript's `trim` and by the
regex class `\s`, restricted to the characters that can realistically
occur in feed data (ASCII whitespace plus NBSP). -/
def isJsWhitespace (c : Char) : Bool :=
  c == ' ' || c == '\t' || c == '\n' || c == '\r' ||
  c == '\x0b' || c == '\x0c' || c == ' '

/-- `String.prototype.trim` (over the modelled whitespace set). -/
def jsTrim (s : String) : String :=
  String.mk (((s.toList.dropWhile isJsWhitespace).reverse.dropWhile
    isJsWhitespace).reverse)

/-- `String.prototype.toUpperCase` on the ASCII fragment (Lean's
`Char.toUpper` uppercases exactly the ASCII letters, matching the
JavaScript builtin there). -/
def jsToUpper (s : String) : String := String.mk (s.toList.map Char.toUpper)

/-- `String.prototype.toLowerCase` on the ASCII fragment. -/
def jsToLower (s : String) : String := String.mk (s.toList.map Char.toLower)

/-- Contiguous-occurrence test on character lists, scanning left to
right. -/
def listContains : List Char → List Char → Bool
  | l@(_ :: t), sub => sub.isPrefixOf l || listContains t sub
  | [], sub => sub.isEmpty

/-- `String.prototype.includes`: `containsSub s sub` is true iff `sub`
occurs contiguously in `s`. -/
def containsSub (s sub : String) : Bool := listContains s.toList sub.toList

theorem listContains_iff (l sub : List Char) :
    listContains l sub = true ↔ sub <:+: l := by
  induction l with
  | nil =>
      simp [listContains, List.isEmpty_iff]
  | cons c t ih =>
      simp only [listContains, Bool.or_eq_true, ih,
        List.isPrefixOf_iff_prefix]
      exact (List.infix_cons_iff).symm

/-! ## C1 — identity key and create-only dedup write

Embeds `jobDocId` (functions/index.js:366-368), `isAlreadyExistsError`
(index.js:504-509) and `createJobIfNew` (index.js:517-530).  The Firestore
jobs collection is modelled as an association list from document id to
document; `bulkWriter.create` is the atomic create-if-absent primitive:
it appends when the id is absent and reports gRPC error code 6
(ALREADY_EXISTS) when the id is present.  No operation of the model reads
a stored document's contents. -/

/-- `jobDocId` (index.js:366-368): the identity key of a job document. -/
def jobDocId (companyKey jobId : String) : String :=
  companyKey ++ "__" ++ jobId

/-- An error surfaced by the Firestore SDK: gRPC status code (when
present) and message. -/
structure FsError where
  code : Option Nat
  message : String
  deriving DecidableEq

/-- `isAlreadyExistsError` (index.js:504-509). -/
def isAlreadyExistsError (e : FsError) : Bool :=
  e.code == some 6 || containsSub e.message "ALREADY_EXISTS" ||
    containsSub e.message "already exists"

/-- The job store: document id to document, in creation order. -/
abbrev Store (α : Type) : Type := List (String × α)

/-- `bulkWriter.create(ref, data)` as used by `createJobIfNew`: atomic
create-if-absent, failing with ALREADY_EXISTS (gRPC code 6) when a
document with that id already exists.  It never reads the stored
document. -/
def bwCreate {α : Type} (store : Store α) (docId : String) (doc : α) :
    Except FsError (Store α) :=
  if store.any (fun kv => kv.1 == docId) then
    .error ⟨some 6, "6 ALREADY_EXISTS: Document already exists"⟩
  else
    .ok (store ++ [(docId, doc)])

/-- The `try`/`catch` of `createJobIfNew` (index.js:517-530), separated
from the write itself so that its behaviour on an arbitrary error is
expressible: a successful create counts 1; an ALREADY_EXISTS error is
swallowed (count 0, store untouched); any other error is rethrown. -/
def createJobIfNewResult {α : Type} (store : Store α)
    (res : Except FsError (Store α)) : Store α × Except FsError Nat :=
  match res with
  | .ok st => (st, .ok 1)
  | .error e =>
      if isAlreadyExistsError e then (store, .ok 0) else (store, .error e)

/-- `createJobIfNew` (index.js:517-530) over the modelled store. -/
def createJobIfNew {α : Type} (store : Store α) (docId : String) (doc : α) :
    Store α × Except FsError Nat :=
  createJobIfNewResult store (bwCreate store docId doc)

/-- Number of stored documents whose id is `docId`. -/
def countKey {α : Type} (store : Store α) (docId : String) : Nat :=
  (store.filter (fun kv => kv.1 == docId)).length

theorem countKey_pos_iff_any {α : Type} (store : Store α) (k : String) :
    store.any (fun kv => kv.1 == k) = true ↔ 0 < countKey store k := by
  simp only [countKey, List.any_eq_true, List.length_pos]
  constructor
  · rintro ⟨kv, h1, h2⟩ hnil
    have hm : kv ∈ List.filter (fun kv => kv.1 == k) store :=
      List.mem_filter.mpr ⟨h1, h2⟩
    rw [hnil] at hm
    exact absurd hm (List.not_mem_nil kv)
  · intro h
    rcases List.exists_mem_of_ne_nil _ h with ⟨kv, hkv⟩
    exact ⟨kv, (List.mem_filter.mp hkv).1, (List.mem_filter.mp hkv).2⟩

theorem countKey_zero_iff_any_false {α : Type} (store : Store α) (k : String) :
    countKey store k = 0 ↔ store.any (fun kv => kv.1 == k) = false := by
  have h := countKey_pos_iff_any store k
  constructor
  · intro h0
    cases hb : store.any (fun kv => kv.1 == k) with
    | false => rfl
    | true => have := h.mp hb; omega
  · intro hb
    by_contra hne
    have := h.mpr (Nat.pos_of_ne_zero hne)
    rw [hb] at this
    exact Bool.noConfusion this

theorem countKey_append {α : Type} (s t : Store α) (k : String) :
    countKey (s ++ t) k = countKey s k + countKey t k := by
  simp [countKey, List.filter_append]

/-- **C1.** For every feed and raw job the identity key is exactly
`companyKey ++ "__" ++ jobId` (hence identical on every ingestion of the
same raw job from the same feed); `createJobIfNew` returns 1 exactly when
the document did not previously exist, returns 0 with no error and leaves
the store untouched when the store reports ALREADY_EXISTS, rethrows any
other error without touching the store, and repeated ingestion never
increases the stored document count for a key. -/
theorem createJobIfNew_dedup {α : Type} (companyKey jobId : String)
    (store : Store α) (k : String) (doc doc' : α) :
    (jobDocId companyKey jobId = companyKey ++ "__" ++ jobId) ∧
    ((createJobIfNew store k doc).2 = .ok 1 ↔ countKey store k = 0) ∧
    (countKey store k = 0 →
      createJobIfNew store k doc = (store ++ [(k, doc)], .ok 1) ∧
      countKey (createJobIfNew store k doc).1 k = 1) ∧
    (0 < countKey store k → createJobIfNew store k doc = (store, .ok 0)) ∧
    (∀ e : FsError, ¬ isAlreadyExistsError e = true →
      createJobIfNewResult store (.error e) = (store, .error e)) ∧
    (countKey (createJobIfNew (createJobIfNew store k doc).1 k doc').1 k =
      countKey (createJobIfNew store k doc).1 k) := by
  have hbeq : (k == k) = true := by simp
  refine ⟨rfl, ?_, ?_, ?_, ?_, ?_⟩
  · constructor
    · intro h
      rw [countKey_zero_iff_any_false]
      cases hb : store.any (fun kv => kv.1 == k) with
      | false => rfl
      | true =>
          simp [createJobIfNew, bwCreate, createJobIfNewResult, hb,
            isAlreadyExistsError] at h
    · intro h
      have hany := (countKey_zero_iff_any_false store k).mp h
      simp [createJobIfNew, bwCreate, createJobIfNewResult, hany]
  · intro h
    have hany := (countKey_zero_iff_any_false store k).mp h
    have heq : createJobIfNew store k doc = (store ++ [(k, doc)], .ok 1) := by
      simp [createJobIfNew, bwCreate, createJobIfNewResult, hany]
    refine ⟨heq, ?_⟩
    rw [heq]
    simp [countKey_append, h, countKey, hbeq]
    intro a b hmem hak
    have hb : ((a, b).1 == k) = true := by simp [hak]
    have hany' : store.any (fun kv => kv.1 == k) = true :=
      List.any_eq_true.mpr ⟨(a, b), hmem, hb⟩
    rw [hany] at hany'
    exact Bool.noConfusion hany'
  · intro h
    have hany := (countKey_pos_iff_any store k).mpr h
    simp [createJobIfNew, bwCreate, createJobIfNewResult, hany,
      isAlreadyExistsError]
  · intro e he
    simp [createJobIfNewResult, he]
  · cases hb : store.any (fun kv => kv.1 == k) with
    | true =>
        have h1 : createJobIfNew store k doc = (store, .ok 0) := by
          simp [createJobIfNew, bwCreate, createJobIfNewResult, hb,
            isAlreadyExistsError]
        rw [h1]
        have h2 : createJobIfNew store k doc' = (store, .ok 0) := by
          simp [createJobIfNew, bwCreate, createJobIfNewResult, hb,
            isAlreadyExistsError]
        rw [h2]
    | false =>
        have h1 : createJobIfNew store k doc = (store ++ [(k, doc)], .ok 1) := by
          simp [createJobIfNew, bwCreate, createJobIfNewResult, hb]
        rw [h1]
        have hanyApp : (store ++ [(k, doc)]).any (fun kv => kv.1 == k) = true := by
          simp
        simp [createJobIfNew, bwCreate, createJobIfNewResult, hanyApp,
          isAlreadyExistsError]

/-- Witness for C1 at a concrete store. -/
theorem createJobIfNew_dedup_witness :
    (createJobIfNew ([("acme__1", 0)] : Store Nat) "acme__2" 7).2 = .ok 1 ∧
    createJobIfNew ([("acme__1", 0)] : Store Nat) "acme__1" 7 =
      ([("acme__1", 0)], .ok 0) := by
  refine ⟨?_, ?_⟩
  · exact (createJobIfNew_dedup "acme" "2" [("acme__1", 0)] "acme__2" 7 7).2.1.mpr
      (by decide)
  · exact (createJobIfNew_dedup "acme" "1" [("acme__1", 0)] "acme__1" 7 7).2.2.2.1
      (by decide)

/-! ## C5 — update-window filtering

Embeds `parseIsoToMs` (index.js:121-125) and `isJobWithinUpdateWindow`
(index.js:127-145).  `Date.parse` is a JavaScript builtin; it is taken as
a parameter `dateParse : String → Option Int` (`none` models `NaN`),
so every theorem below holds for the actual builtin.  Raw jobs are
records of the optional fields the pipeline reads; an absent field is
`none`. -/

/-- The raw job fields read by the ingestion pipeline.  `location_name`
is the Greenhouse `location.name`; `location` is the Ashby flat location
string; `isRemote` is the Ashby explicit remote flag. -/
structure RawJob where
  updated_at : Option String := none
  first_published : Option String := none
  publishedAt : Option String := none
  location_name : Option String := none
  location : Option String := none
  isRemote : Option Bool := none
  id : String := ""
  deriving DecidableEq

/-- `UPDATE_WINDOW_MS` (index.js:40): one hour. -/
def UPDATE_WINDOW_MS : Int := 60 * 60 * 1000

/-- `parseIsoToMs` (index.js:121-125): `null` on a falsy input, otherwise
`Date.parse`, with non-finite results mapped to `null`. -/
def parseIsoToMs (dateParse : String → Option Int) :
    Option String → Option Int
  | none => none
  | some s => if s = "" then none else dateParse s

/-- `isJobWithinUpdateWindow` (index.js:127-145). -/
def isJobWithinUpdateWindow (dateParse : String → Option Int)
    (source : String) (j : RawJob) (nowMs : Int) : Bool :=
  let cutoffMs := nowMs - UPDATE_WINDOW_MS
  if source = "greenhouse" then
    match parseIsoToMs dateParse j.updated_at with
    | some updatedMs => decide (cutoffMs ≤ updatedMs)
    | none =>
        match parseIsoToMs dateParse j.first_published with
        | some firstPubMs => decide (cutoffMs ≤ firstPubMs)
        | none => false
  else if source = "ashby" then
    match parseIsoToMs dateParse j.publishedAt with
    | some pubMs => decide (cutoffMs ≤ pubMs)
    | none => false
  else false

/-- **C5.** `isJobWithinUpdateWindow` is true iff the source's timestamp
parses to an instant at or after `now` minus the 1-hour window: for
greenhouse it uses `updated_at` and falls back to `first_published`
exactly when `updated_at` is missing or unparseable; for ashby it uses
`publishedAt` with no fallback; and when all relevant timestamps are
missing or unparseable it returns false. -/
theorem isJobWithinUpdateWindow_spec (dateParse : String → Option Int)
    (source : String) (j : RawJob) (nowMs : Int) :
    (isJobWithinUpdateWindow dateParse source j nowMs = true ↔
      (source = "greenhouse" ∧
        ((∃ ms, parseIsoToMs dateParse j.updated_at = some ms ∧
            nowMs - UPDATE_WINDOW_MS ≤ ms) ∨
         (parseIsoToMs dateParse j.updated_at = none ∧
          ∃ ms, parseIsoToMs dateParse j.first_published = some ms ∧
            nowMs - UPDATE_WINDOW_MS ≤ ms))) ∨
      (source = "ashby" ∧
        ∃ ms, parseIsoToMs dateParse j.publishedAt = some ms ∧
          nowMs - UPDATE_WINDOW_MS ≤ ms)) ∧
    (parseIsoToMs dateParse j.updated_at = none ∧
     parseIsoToMs dateParse j.first_published = none ∧
     parseIsoToMs dateParse j.publishedAt = none →
      isJobWithinUpdateWindow dateParse source j nowMs = false) := by
  constructor
  · by_cases hg : source = "greenhouse"
    · cases hu : parseIsoToMs dateParse j.updated_at with
      | some ms =>
          simp [isJobWithinUpdateWindow, hg, hu]
      | none =>
          cases hf : parseIsoToMs dateParse j.first_published with
          | some ms =>
              simp [isJobWithinUpdateWindow, hg, hu, hf]
          | none => simp [isJobWithinUpdateWindow, hg, hu, hf]
    · by_cases ha : source = "ashby"
      · cases hp : parseIsoToMs dateParse j.publishedAt with
        | some ms =>
            simp [isJobWithinUpdateWindow, hg, ha, hp]
        | none => simp [isJobWithinUpdateWindow, hg, ha, hp]
      · simp [isJobWithinUpdateWindow, hg, ha]
  · rintro ⟨hu, hf, hp⟩
    by_cases hg : source = "greenhouse"
    · simp [isJobWithinUpdateWindow, hg, hu, hf]
    · by_cases ha : source = "ashby"
      · simp [isJobWithinUpdateWindow, hg, ha, hp]
      · simp [isJobWithinUpdateWindow, hg, ha]

/-- Witness for C5: a greenhouse job updated at the current instant is
within the window; one with no parseable timestamp is not. -/
theorem isJobWithinUpdateWindow_spec_witness :
    isJobWithinUpdateWindow
      (fun s => if s = "2024-01-01T00:00:00Z" then some 1704067200000 else none)
      "greenhouse" { updated_at := some "2024-01-01T00:00:00Z" }
      1704067200000 = true ∧
    isJobWithinUpdateWindow
      (fun s => if s = "2024-01-01T00:00:00Z" then some 1704067200000 else none)
      "greenhouse" { updated_at := some "garbage" } 1704067200000 = false := by
  constructor
  · exact (isJobWithinUpdateWindow_spec
        (fun s => if s = "2024-01-01T00:00:00Z" then some 1704067200000 else none)
        "greenhouse" { updated_at := some "2024-01-01T00:00:00Z" }
        1704067200000).1.mpr
      (Or.inl ⟨rfl, Or.inl ⟨1704067200000, by decide, by decide⟩⟩)
  · exact (isJobWithinUpdateWindow_spec
        (fun s => if s = "2024-01-01T00:00:00Z" then some 1704067200000 else none)
        "greenhouse" { updated_at := some "garbage" } 1704067200000).2
      ⟨by decide, by decide, by decide⟩

/-! ## C4 — US-location classification

Embeds `isUSLocation` (index.js:56-71).  The regular expressions
`(?:^|[,\s\/•\-|\|])PAT(?:[\s,;\/•\-|\|]|$)` and `\bUS\b` are modelled by
a direct scanner `scanToken` that looks for a contiguous occurrence of
the pattern bounded on the left by start-of-string or a character of the
opening separator class and on the right by end-of-string or a character
of the closing class; `scanToken_iff` proves the scanner equivalent to
the existence of such a bounded occurrence.  The three array constants
are elided in `functions/index.js` (lines 49-54, comment
`keep your existing array`); their values are taken from the earlier
revision of the file kept in the repository (lines 61-63 there). -/

/-- Opening separator class `[,\s\/•\-|\|]` of the city/state regexes. -/
def isPreSep (c : Char) : Bool :=
  c == ',' || isJsWhitespace c || c == '/' || c == '•' || c == '-' || c == '|'

/-- Closing separator class `[\s,;\/•\-|\|]` of the city/state regexes. -/
def isPostSep (c : Char) : Bool :=
  isJsWhitespace c || c == ',' || c == ';' || c == '/' || c == '•' ||
    c == '-' || c == '|'

/-- JavaScript regex word character class `\w` = `[A-Za-z0-9_]`. -/
def isJsWordChar (c : Char) : Bool := c.isAlphanum || c == '_'

/-- Scanner for `(?:^|[OPEN])PAT(?:[CLOSE]|$)`-shaped regexes: walks the
text keeping the previous character (`none` at start of string) and
tests, at every position, pattern match plus the two boundary
predicates (which receive `none` at the ends of the string). -/
def scanToken (preB postB : Option Char → Bool) (pat : List Char) :
    Option Char → List Char → Bool
  | prev, [] => preB prev && pat.isPrefixOf ([] : List Char) && postB none
  | prev, c :: rest =>
      (preB prev && pat.isPrefixOf (c :: rest) &&
        postB ((c :: rest).drop pat.length).head?) ||
      scanToken preB postB pat (some c) rest

/-- Boundary admissible on the left of a token: start of string or an
opening separator. -/
def preOk (o : Option Char) : Bool :=
  match o with
  | none => true
  | some c => isPreSep c

/-- Boundary admissible on the right of a token: end of string or a
closing separator. -/
def postOk (o : Option Char) : Bool :=
  match o with
  | none => true
  | some c => isPostSep c

/-- Boundary of `\b` next to a word: the adjacent character is absent or
a non-word character. -/
def wordBoundary (o : Option Char) : Bool :=
  match o with
  | none => true
  | some c => !isJsWordChar c

/-- The regex test `(?:^|[,\s\/•\-|\|])PAT(?:[\s,;\/•\-|\|]|$)` of
index.js:62 and index.js:67 for a literal pattern `pat`. -/
def sepTokenMatch (pat s : String) : Bool :=
  scanToken preOk postOk pat.toList none s.toList

/-- The regex test `/\bUS\b/` of index.js:68. -/
def usWordMatch (s : String) : Bool :=
  scanToken wordBoundary wordBoundary "US".toList none s.toList

/-- `US_STATE_CODES` (elided at index.js:52; values from the earlier
revision of the file). -/
def US_STATE_CODES : List String :=
  ["AL", "AK", "AZ", "AR", "CA", "CO", "CT", "DE", "FL", "GA", "HI", "ID",
   "IL", "IN", "IA", "KS", "KY", "LA", "ME", "MD", "MA", "MI", "MN", "MS",
   "MO", "MT", "NE", "NV", "NH", "NJ", "NM", "NY", "NC", "ND", "OH", "OK",
   "OR", "PA", "RI", "SC", "SD", "TN", "TX", "UT", "VT", "VA", "WA", "WV",
   "WI", "WY", "DC"]

/-- `US_KEYWORDS` (elided at index.js:53; values from the earlier
revision of the file). -/
def US_KEYWORDS : List String :=
  ["UNITED STATES", "USA", "AMER - US", "USCA", "US-REMOTE", "US REMOTE",
   "REMOTE US", "REMOTE - US", "NYC", "SAN FRANCISCO", "SF-HQ",
   "US-NATIONAL", "WASHINGTON DC", "ANYWHERE IN THE UNITED STATES"]

/-- `MAJOR_US_CITIES` (elided at index.js:54; values from the earlier
revision of the file). -/
def MAJOR_US_CITIES : List String :=
  ["SAN FRANCISCO", "NYC", "NEW YORK CITY", "LOS ANGELES", "CHICAGO",
   "HOUSTON", "PHOENIX", "PHILADELPHIA", "SAN ANTONIO", "SAN DIEGO",
   "DALLAS", "SAN JOSE", "AUSTIN", "JACKSONVILLE", "FORT WORTH",
   "COLUMBUS", "CHARLOTTE", "INDIANAPOLIS", "SEATTLE", "DENVER", "BOSTON",
   "EL PASO", "NASHVILLE", "DETROIT", "OKLAHOMA CITY", "PORTLAND",
   "LAS VEGAS", "MEMPHIS", "LOUISVILLE", "BALTIMORE", "MILWAUKEE",
   "ALBUQUERQUE", "TUCSON", "FRESNO", "SACRAMENTO", "MESA", "KANSAS CITY",
   "ATLANTA", "OMAHA", "COLORADO SPRINGS", "RALEIGH", "LONG BEACH",
   "VIRGINIA BEACH", "MIAMI", "OAKLAND", "MINNEAPOLIS", "TULSA",
   "BAKERSFIELD", "WICHITA", "ARLINGTON"]

/-- `isUSLocation` (index.js:56-71), parameterised by the three
configuration arrays. -/
def isUSLocation (kws cities codes : List String) (locationText : String) :
    Bool :=
  if locationText = "" then false
  else
    let text := jsToUpper locationText
    kws.any (fun kw => containsSub text kw) ||
    cities.any (fun city => sepTokenMatch city text) ||
    (codes.any (fun code => sepTokenMatch code text) ||
     usWordMatch text ||
     containsSub text "U.S.")

theorem scanToken_here (preB postB : Option Char → Bool) (pat : List Char)
    (prev : Option Char) (s : List Char) (h1 : preB prev = true)
    (h2 : pat.isPrefixOf s = true) (h3 : postB (s.drop pat.length).head? = true) :
    scanToken preB postB pat prev s = true := by
  cases s with
  | nil =>
      simp only [List.drop_nil, List.head?_nil] at h3
      simp [scanToken, h1, h2, h3]
  | cons c rest =>
      simp only [scanToken]
      rw [h1, h2, h3]
      simp

theorem scanToken_iff (preB postB : Option Char → Bool) (pat : List Char) :
    ∀ (s : List Char) (prev : Option Char),
      scanToken preB postB pat prev s = true ↔
        ∃ pre post, s = pre ++ pat ++ post ∧
          preB (pre.getLast?.or prev) = true ∧ postB post.head? = true := by
  intro s
  induction s with
  | nil =>
      intro prev
      simp only [scanToken, Bool.and_eq_true]
      constructor
      · rintro ⟨⟨h1, h2⟩, h3⟩
        have hpat : pat = [] := by
          cases pat with
          | nil => rfl
          | cons p ps => simp [List.isPrefixOf] at h2
        refine ⟨[], [], by simp [hpat], by simpa using h1, by simpa using h3⟩
      · rintro ⟨pre, post, hdec, h1, h2⟩
        have hpre : pre = [] := by
          cases pre with
          | nil => rfl
          | cons a b => simp at hdec
        have hpat : pat = [] := by
          subst hpre
          cases pat with
          | nil => rfl
          | cons a b => simp at hdec
        have hpost : post = [] := by
          subst hpre hpat
          simpa using hdec.symm
        subst hpre hpat hpost
        simp at h1 h2
        exact ⟨⟨h1, by simp [List.isPrefixOf]⟩, h2⟩
  | cons c rest ih =>
      intro prev
      simp only [scanToken, Bool.or_eq_true, Bool.and_eq_true]
      constructor
      · rintro (⟨⟨h1, h2⟩, h3⟩ | h)
        · rcases List.isPrefixOf_iff_prefix.mp h2 with ⟨post, hpost⟩
          refine ⟨[], post, by simp [hpost.symm], by simpa using h1, ?_⟩
          have : (c :: rest).drop pat.length = post := by
            rw [← hpost]
            exact List.drop_left pat post
          rwa [this] at h3
        · rcases (ih (some c)).mp h with ⟨pre, post, hdec, h1, h2⟩
          refine ⟨c :: pre, post, by simp [hdec], ?_, h2⟩
          cases pre with
          | nil => simpa using h1
          | cons a b =>
              have : (c :: a :: b).getLast? = (a :: b).getLast? := by
                simp [List.getLast?]
              rw [this]
              simpa using h1
      · rintro ⟨pre, post, hdec, h1, h2⟩
        cases pre with
        | nil =>
            left
            simp only [List.nil_append] at hdec
            refine ⟨⟨by simpa using h1, ?_⟩, ?_⟩
            · exact List.isPrefixOf_iff_prefix.mpr ⟨post, hdec.symm⟩
            · have : (c :: rest).drop pat.length = post := by
                rw [hdec]
                exact List.drop_left pat post
              rwa [this]
        | cons a b =>
            right
            have hca : c = a := by
              simpa using congrArg (fun l => l.head?) hdec
            have hrest : rest = b ++ pat ++ post := by
              have := congrArg (fun l => l.tail) hdec
              simpa using this
            refine (ih (some c)).mpr ⟨b, post, hrest, ?_, h2⟩
            cases b with
            | nil =>
                have h1' : preB (some a) = true := by simpa using h1
                simpa [hca] using h1'
            | cons x y =>
                have hLcons : (a :: x :: y).getLast? = (x :: y).getLast? := by
                  simp [List.getLast?]
                rw [hLcons] at h1
                cases hxy : (x :: y).getLast? with
                | none => simp [List.getLast?] at hxy
                | some d =>
                    rw [hxy] at h1
                    simpa using h1

theorem sepTokenMatch_iff (pat s : String) :
    sepTokenMatch pat s = true ↔
      ∃ pre post, s.toList = pre ++ pat.toList ++ post ∧
        preOk pre.getLast? = true ∧ postOk post.head? = true := by
  unfold sepTokenMatch
  rw [scanToken_iff]
  simp [Option.or_none]

/-- **C4.** Token-boundary correctness of `isUSLocation`: (1) whenever a
configured major-city name occurs in the uppercased location text as a
whole token — bounded on the left by start-of-string or an opening
separator (comma, whitespace, slash, bullet, hyphen, pipe) and on the
right by end-of-string or a closing separator — `isUSLocation` is true;
(2) the city/state-code regex test holds **iff** such a bounded
occurrence exists, so an occurrence strictly inside a longer word never
satisfies it; (3) concretely, with the configured arrays, "CA" inside
"Canada" does not make `isUSLocation` true, while matching is
case-insensitive (lower-case input is classified via its uppercase
image). -/
theorem isUSLocation_token_boundary :
    (∀ (kws cities codes : List String) (s city : String)
        (pre post : List Char),
      city ∈ cities → city ≠ "" →
      (jsToUpper s).toList = pre ++ city.toList ++ post →
      preOk pre.getLast? = true → postOk post.head? = true →
      isUSLocation kws cities codes s = true) ∧
    (∀ pat s : String, sepTokenMatch pat s = true ↔
      ∃ pre post, s.toList = pre ++ pat.toList ++ post ∧
        preOk pre.getLast? = true ∧ postOk post.head? = true) ∧
    isUSLocation US_KEYWORDS MAJOR_US_CITIES US_STATE_CODES
      "Toronto, Canada" = false ∧
    isUSLocation US_KEYWORDS MAJOR_US_CITIES US_STATE_CODES
      "san francisco, ca" = true := by
  refine ⟨?_, sepTokenMatch_iff, by decide, by decide⟩
  intro kws cities codes s city pre post hmem hcity hdec hpre hpost
  have hs : s ≠ "" := by
    intro hempty
    rw [hempty] at hdec
    have : city.toList = [] := by
      cases hpre' : pre with
      | cons a b => rw [hpre'] at hdec; simp [jsToUpper] at hdec
      | nil =>
          rw [hpre'] at hdec
          simp [jsToUpper] at hdec
          exact hdec.1
    exact hcity (by
      have := congrArg String.mk this
      simpa using this)
  have hmatch : sepTokenMatch city (jsToUpper s) = true :=
    (sepTokenMatch_iff city (jsToUpper s)).mpr ⟨pre, post, hdec, hpre, hpost⟩
  have hany : cities.any (fun c => sepTokenMatch c (jsToUpper s)) = true :=
    List.any_eq_true.mpr ⟨city, hmem, hmatch⟩
  simp [isUSLocation, hs, hany]

/-- Witness for C4: the general whole-token clause applied at a concrete
city list and location string. -/
theorem isUSLocation_token_boundary_witness :
    isUSLocation [] ["BOSTON"] [] "Boston, MA" = true :=
  isUSLocation_token_boundary.1 [] ["BOSTON"] [] "Boston, MA" "BOSTON"
    [] (", MA".toList) (by decide) (by decide) (by decide) (by decide)
    (by decide)

/-! ## C3 — keep-by-location decision

Embeds `isRemoteLocation` (index.js:73-85), `shouldKeepJobByLocation`
(index.js:87-90) and the keep decision of the `processOneFeed` filter
loop (index.js:540-544), which keeps a job when its location text is
falsy (absent or empty) or `shouldKeepJobByLocation` accepts it.  The
exclusion list `REMOTE_EXCLUDE_SUBSTRINGS` (index.js:49, elided) is a
parameter everywhere. -/

/-- `isRemoteLocation` (index.js:73-85). -/
def isRemoteLocation (excludes : List String) (locationText : String) :
    Bool :=
  if locationText = "" then false
  else
    let s := jsToLower (jsTrim locationText)
    if containsSub s "remote" then
      if containsSub s "us-remote" || containsSub s "remote us" ||
          containsSub s "remote - us" then true
      else !(excludes.any (fun bad => containsSub s bad))
    else false

/-- `shouldKeepJobByLocation` (index.js:87-90). -/
def shouldKeepJobByLocation (excludes kws cities codes : List String)
    (locationName : String) (j : RawJob) : Bool :=
  if j.isRemote == some true then true
  else isUSLocation kws cities codes locationName ||
    isRemoteLocation excludes locationName

/-- The keep decision of the filter loop in `processOneFeed`
(index.js:540-544): the location text is `location.name` for greenhouse
and `location` otherwise; a falsy location keeps the job. -/
def keepByLocation (excludes kws cities codes : List String)
    (source : String) (j : RawJob) : Bool :=
  let loc := if source = "greenhouse" then j.location_name else j.location
  match loc with
  | none => true
  | some l =>
      if l = "" then true
      else shouldKeepJobByLocation excludes kws cities codes l j

/-- **C3.** The keep decision: explicit remote flag forces keep,
otherwise `isUS || isRemote` on the location text, and an empty or
absent location text keeps the job; `isRemoteLocation` holds iff the
trimmed lowercased text contains "remote" and either contains a
US-remote phrase or contains none of the configured exclusion
substrings; consequently "Remote - US" is kept regardless of the
exclusion list and "London, United Kingdom" (without "remote") is
dropped. -/
theorem keepByLocation_spec :
    (∀ (excludes kws cities codes : List String) (source : String)
        (j : RawJob),
      keepByLocation excludes kws cities codes source j =
        (match (if source = "greenhouse" then j.location_name else j.location)
            with
         | none => true
         | some l =>
             if l = "" then true
             else if j.isRemote == some true then true
             else isUSLocation kws cities codes l ||
               isRemoteLocation excludes l)) ∧
    (∀ (excludes : List String) (s : String),
      isRemoteLocation excludes s = true ↔
        (containsSub (jsToLower (jsTrim s)) "remote" = true ∧
         (containsSub (jsToLower (jsTrim s)) "us-remote" = true ∨
          containsSub (jsToLower (jsTrim s)) "remote us" = true ∨
          containsSub (jsToLower (jsTrim s)) "remote - us" = true ∨
          ∀ bad ∈ excludes,
            containsSub (jsToLower (jsTrim s)) bad = false))) ∧
    (∀ (excludes : List String) (j : RawJob),
      shouldKeepJobByLocation excludes US_KEYWORDS MAJOR_US_CITIES
        US_STATE_CODES "Remote - US" j = true) ∧
    (∀ excludes : List String,
      keepByLocation excludes US_KEYWORDS MAJOR_US_CITIES US_STATE_CODES
        "greenhouse" { location_name := some "London, United Kingdom" } =
        false) ∧
    (∀ (excludes kws cities codes : List String) (source : String)
        (j : RawJob),
      (if source = "greenhouse" then j.location_name else j.location) = none ∨
      (if source = "greenhouse" then j.location_name else j.location) =
        some "" →
      keepByLocation excludes kws cities codes source j = true) := by
  refine ⟨?_, ?_, ?_, ?_, ?_⟩
  · intro excludes kws cities codes source j
    cases hloc : (if source = "greenhouse" then j.location_name else j.location)
      with
    | none => simp [keepByLocation, hloc]
    | some l =>
        by_cases hl : l = ""
        · simp [keepByLocation, hloc, hl]
        · simp [keepByLocation, hloc, hl, shouldKeepJobByLocation]
  · intro excludes s
    by_cases h0 : s = ""
    · subst h0
      simp only [isRemoteLocation, if_pos rfl]
      constructor
      · intro h; exact Bool.noConfusion h
      · rintro ⟨h1, -⟩
        exact absurd h1 (by decide)
    · simp only [isRemoteLocation, if_neg h0]
      by_cases hr : containsSub (jsToLower (jsTrim s)) "remote" = true
      · rw [if_pos hr]
        by_cases hus : (containsSub (jsToLower (jsTrim s)) "us-remote" ||
            containsSub (jsToLower (jsTrim s)) "remote us" ||
            containsSub (jsToLower (jsTrim s)) "remote - us") = true
        · rw [if_pos hus]
          simp only [Bool.or_eq_true] at hus
          constructor
          · intro _
            refine ⟨hr, ?_⟩
            rcases hus with (h | h) | h
            · exact Or.inl h
            · exact Or.inr (Or.inl h)
            · exact Or.inr (Or.inr (Or.inl h))
          · intro _; rfl
        · rw [if_neg hus]
          simp only [Bool.or_eq_true] at hus
          push_neg at hus
          constructor
          · intro h
            refine ⟨hr, Or.inr (Or.inr (Or.inr ?_))⟩
            intro bad hbad
            simp only [Bool.not_eq_true'] at h
            rcases hany : containsSub (jsToLower (jsTrim s)) bad with _ | _
            · rfl
            · exact absurd (List.any_eq_true.mpr ⟨bad, hbad, hany⟩)
                (by simp [h])
          · rintro ⟨-, (h | h | h | h)⟩
            · exact absurd h hus.1.1
            · exact absurd h hus.1.2
            · exact absurd h hus.2
            · simp only [Bool.not_eq_true']
              rw [List.any_eq_false]
              intro bad hbad
              simp [h bad hbad]
      · rw [if_neg hr]
        constructor
        · intro h; exact Bool.noConfusion h
        · rintro ⟨h1, -⟩; exact absurd h1 hr
  · intro excludes j
    have hrem : isRemoteLocation excludes "Remote - US" = true := rfl
    cases hj : j.isRemote == some true with
    | true => simp [shouldKeepJobByLocation, hj]
    | false =>
        simp [shouldKeepJobByLocation, hj, hrem]
  · intro excludes
    rfl
  · intro excludes kws cities codes source j h
    rcases h with h | h <;> simp [keepByLocation, h]

/-- Witness for C3: the empty-location clause and the Remote-US clause at
concrete inputs. -/
theorem keepByLocation_spec_witness :
    keepByLocation ["united kingdom"] [] [] [] "ashby" { } = true ∧
    shouldKeepJobByLocation ["united kingdom"] US_KEYWORDS MAJOR_US_CITIES
      US_STATE_CODES "Remote - US" { } = true := by
  constructor
  · exact keepByLocation_spec.2.2.2.2 ["united kingdom"] [] [] [] "ashby"
      { } (Or.inl rfl)
  · exact keepByLocation_spec.2.2.1 ["united kingdom"] { }

/-! ## JSON values

Parsed JSON documents, used for feed payloads and metadata values.
`null` also stands for JavaScript `undefined` where the source treats the
two alike (all uses below are guarded by checks that do not separate
them). -/

/-- A parsed JSON value. -/
inductive JVal where
  | null : JVal
  | bool (b : Bool) : JVal
  | num (q : ℚ) : JVal
  | str (s : String) : JVal
  | arr (elems : List JVal) : JVal
  | obj (fields : List (String × JVal)) : JVal

/-! ## C2 — resilient fetch with retry

Embeds `isRetryableHttpStatus` (index.js:178-180) and `fetchJson`
(index.js:182-234).  The network is modelled by a function
`att : Nat → FetchOutcome` giving the outcome of each attempt: a
successful response whose body parses to a JSON value, an HTTP error
response (status, statusText, body text as read by `safeReadText`), or a
thrown exception (name and message; timeout aborts throw name
`AbortError`).  The `while` loop is written with explicit fuel
`FETCH_RETRIES + 2`, which is enough for every path of the source (the
trailing `Fetch failed after retries` throw of index.js:233 is the
fuel-exhausted branch).  Backoff delays are timing and do not affect the
returned value. -/

/-- Outcome of one fetch attempt against the network. -/
inductive FetchOutcome where
  | success (json : JVal) : FetchOutcome
  | httpError (status : Nat) (statusText : String) (body : String) :
      FetchOutcome
  | thrown (name message : String) : FetchOutcome

/-- A thrown JavaScript error: `name` and `message`. -/
structure JsError where
  name : String
  message : String

/-- `FETCH_RETRIES` (index.js:35). -/
def FETCH_RETRIES : Nat := 2

/-- `FETCH_TIMEOUT_MS` (index.js:34). -/
def FETCH_TIMEOUT_MS : Nat := 60000

/-- `String.prototype.slice(0, n)`. -/
def jsSlice (s : String) (n : Nat) : String := String.mk (s.toList.take n)

/-- `isRetryableHttpStatus` (index.js:178-180). -/
def isRetryableHttpStatus (status : Nat) : Bool :=
  status == 408 || status == 425 || status == 429 || status == 500 ||
    status == 502 || status == 503 || status == 504

/-- The case-insensitive regex test
`/ECONNRESET|ETIMEDOUT|EAI_AGAIN|ENOTFOUND/i` of index.js:216. -/
def netErrPattern (s : String) : Bool :=
  containsSub (jsToUpper s) "ECONNRESET" ||
  containsSub (jsToUpper s) "ETIMEDOUT" ||
  containsSub (jsToUpper s) "EAI_AGAIN" ||
  containsSub (jsToUpper s) "ENOTFOUND"

/-- The error message built for a non-ok response (index.js:201). -/
def httpErrorMsg (url : String) (status : Nat) (statusText body : String) :
    String :=
  "HTTP " ++ toString status ++ " " ++ statusText ++ " for " ++ url ++
    " :: " ++ jsSlice body 300

/-- The retry loop of `fetchJson` (index.js:185-231).  An HTTP error
first checks the retryable-status condition (index.js:203); if that
fails the built message is thrown and lands in the `catch` block
(index.js:214-227), whose retry condition tests `AbortError` and the
network-error pattern on the error message. -/
def fetchJsonLoop (url : String) (att : Nat → FetchOutcome) :
    Nat → Nat → Except JsError JVal
  | _, 0 => .error ⟨"Error", "Fetch failed after retries for " ++ url⟩
  | attempt, fuel + 1 =>
    if attempt ≤ FETCH_RETRIES then
      match att attempt with
      | .success j => .ok j
      | .httpError status statusText body =>
          let msg := httpErrorMsg url status statusText body
          if isRetryableHttpStatus status && decide (attempt < FETCH_RETRIES)
            then fetchJsonLoop url att (attempt + 1) fuel
          else if decide (attempt < FETCH_RETRIES) && netErrPattern msg then
            fetchJsonLoop url att (attempt + 1) fuel
          else .error ⟨"Error", msg⟩
      | .thrown name message =>
          if decide (attempt < FETCH_RETRIES) &&
              (name == "AbortError" || netErrPattern message) then
            fetchJsonLoop url att (attempt + 1) fuel
          else if name == "AbortError" then
            .error ⟨"Error",
              "Timeout after " ++ toString FETCH_TIMEOUT_MS ++ "ms for " ++
                url⟩
          else .error ⟨name, message⟩
    else .error ⟨"Error", "Fetch failed after retries for " ++ url⟩

/-- `fetchJson` (index.js:182-234). -/
def fetchJson (url : String) (att : Nat → FetchOutcome) :
    Except JsError JVal :=
  fetchJsonLoop url att 0 (FETCH_RETRIES + 2)

/-- An attempt outcome on which the loop retries: retryable HTTP status,
or abort/network-pattern exception, or an HTTP error whose built message
matches the network-error pattern (the message embeds the body snippet
and the URL, so those can trigger it). -/
def retryEligible (url : String) (o : FetchOutcome) : Bool :=
  match o with
  | .success _ => false
  | .httpError status statusText body =>
      isRetryableHttpStatus status ||
        netErrPattern (httpErrorMsg url status statusText body)
  | .thrown name message => name == "AbortError" || netErrPattern message

/-- **C2 counterexample.** The claim says a non-retryable HTTP error
(e.g. 404) fails on the first attempt.  But the thrown HTTP error
message is tested against the network-error regex in the `catch` block
(index.js:216), and the message embeds the body snippet — so a 404 whose
body contains "ECONNRESET" is retried, and here the second attempt
succeeds: `fetchJson` returns the parsed JSON instead of failing. -/
theorem fetchJson_404_body_retries :
    fetchJson "https://example.com/feed"
      (fun n =>
        if n == 0 then .httpError 404 "Not Found" "read ECONNRESET"
        else .success (.num 1)) = .ok (.num 1) := by
  rfl

theorem fetchJsonLoop_at2_ok (url : String) (att : Nat → FetchOutcome)
    (j : JVal) (fuel : Nat)
    (h : fetchJsonLoop url att 2 (fuel + 1) = .ok j) :
    att 2 = .success j := by
  cases h2 : att 2 with
  | success j2 =>
      simp [fetchJsonLoop, h2, FETCH_RETRIES] at h
      rw [h]
  | httpError s st b =>
      simp [fetchJsonLoop, h2, FETCH_RETRIES] at h
  | thrown nm m =>
      simp [fetchJsonLoop, h2, FETCH_RETRIES] at h
      split at h <;> simp at h

theorem fetchJsonLoop_at1_ok (url : String) (att : Nat → FetchOutcome)
    (j : JVal) (fuel : Nat)
    (h : fetchJsonLoop url att 1 (fuel + 1 + 1) = .ok j) :
    att 1 = .success j ∨
      (retryEligible url (att 1) = true ∧ att 2 = .success j) := by
  cases h1 : att 1 with
  | success j1 =>
      left
      simp [fetchJsonLoop, h1, FETCH_RETRIES] at h
      rw [h]
  | httpError s st b =>
      right
      simp only [fetchJsonLoop, h1, FETCH_RETRIES] at h
      rw [if_pos (by norm_num)] at h
      by_cases hr : isRetryableHttpStatus s = true
      · rw [if_pos (by simp [hr])] at h
        exact ⟨by simp [retryEligible, h1, hr],
          fetchJsonLoop_at2_ok url att j fuel h⟩
      · rw [if_neg (by simp [hr])] at h
        by_cases hp : netErrPattern (httpErrorMsg url s st b) = true
        · rw [if_pos (by simp [hp])] at h
          exact ⟨by simp [retryEligible, h1, hp],
            fetchJsonLoop_at2_ok url att j fuel h⟩
        · rw [if_neg (by simp [hp])] at h
          exact absurd h (by simp)
  | thrown nm m =>
      right
      simp only [fetchJsonLoop, h1, FETCH_RETRIES] at h
      rw [if_pos (by norm_num)] at h
      by_cases hp : (nm == "AbortError" || netErrPattern m) = true
      · rw [if_pos (by simp_all)] at h
        exact ⟨by simp [retryEligible, h1, hp], fetchJsonLoop_at2_ok url att j fuel h⟩
      · rw [if_neg (by simp_all)] at h
        split at h <;> simp at h

theorem fetchJson_ok_structure (url : String) (att : Nat → FetchOutcome)
    (j : JVal) (h : fetchJson url att = .ok j) :
    att 0 = .success j ∨
      (retryEligible url (att 0) = true ∧
        (att 1 = .success j ∨
          (retryEligible url (att 1) = true ∧ att 2 = .success j))) := by
  cases h0 : att 0 with
  | success j0 =>
      left
      simp [fetchJson, fetchJsonLoop, h0, FETCH_RETRIES] at h
      rw [h]
  | httpError s st b =>
      right
      rw [show fetchJson url att = fetchJsonLoop url att 0 (3 + 1) from rfl]
        at h
      simp only [fetchJsonLoop, h0, FETCH_RETRIES] at h
      rw [if_pos (by norm_num)] at h
      by_cases hr : isRetryableHttpStatus s = true
      · rw [if_pos (by simp [hr])] at h
        exact ⟨by simp [retryEligible, h0, hr],
          fetchJsonLoop_at1_ok url att j 1 h⟩
      · rw [if_neg (by simp [hr])] at h
        by_cases hp : netErrPattern (httpErrorMsg url s st b) = true
        · rw [if_pos (by simp [hp])] at h
          exact ⟨by simp [retryEligible, h0, hp],
            fetchJsonLoop_at1_ok url att j 1 h⟩
        · rw [if_neg (by simp [hp])] at h
          exact absurd h (by simp)
  | thrown nm m =>
      right
      rw [show fetchJson url att = fetchJsonLoop url att 0 (3 + 1) from rfl]
        at h
      simp only [fetchJsonLoop, h0, FETCH_RETRIES] at h
      rw [if_pos (by norm_num)] at h
      by_cases hp : (nm == "AbortError" || netErrPattern m) = true
      · rw [if_pos (by simp_all)] at h
        exact ⟨by simp [retryEligible, h0, hp],
          fetchJsonLoop_at1_ok url att j 1 h⟩
      · rw [if_neg (by simp_all)] at h
        split at h <;> simp at h

theorem containsSub_middle (a b c : String) :
    containsSub (a ++ b ++ c) b = true := by
  rw [containsSub, listContains_iff]
  exact ⟨a.toList, c.toList, by simp [String.toList, String.data_append]⟩

/-- **C2 (amended).** `fetchJson` retries only when the HTTP status is in
{408, 425, 429, 500, 502, 503, 504}, or the failure is an abort/timeout
or matches the connection-reset/timeout/DNS network-error pattern, or —
the amendment — the built HTTP error message (which embeds the ≤300-char
body snippet and the URL) itself matches that pattern; at most 2 retries
(3 attempts) are made.  A URL yielding 503 on the first two attempts and
200 on the third returns the parsed JSON of the 200 response, and a
non-retryable HTTP error whose built message does not match the
network-error pattern fails on the first attempt with a message
containing the status and a body snippet of at most 300 characters. -/
theorem fetchJson_retry_spec :
    (∀ (url : String) (att : Nat → FetchOutcome) (j : JVal)
        (st1 b1 st2 b2 : String),
      att 0 = .httpError 503 st1 b1 → att 1 = .httpError 503 st2 b2 →
      att 2 = .success j → fetchJson url att = .ok j) ∧
    (∀ (url : String) (att : Nat → FetchOutcome) (status : Nat)
        (st body : String),
      att 0 = .httpError status st body →
      isRetryableHttpStatus status = false →
      netErrPattern (httpErrorMsg url status st body) = false →
      fetchJson url att =
        .error ⟨"Error", httpErrorMsg url status st body⟩ ∧
      containsSub (httpErrorMsg url status st body) (toString status) =
        true ∧
      containsSub (httpErrorMsg url status st body) (jsSlice body 300) =
        true ∧
      (jsSlice body 300).length ≤ 300) ∧
    (∀ (url : String) (att : Nat → FetchOutcome) (j : JVal),
      fetchJson url att = .ok j →
      att 0 = .success j ∨
        (retryEligible url (att 0) = true ∧
          (att 1 = .success j ∨
            (retryEligible url (att 1) = true ∧ att 2 = .success j)))) := by
  refine ⟨?_, ?_, fetchJson_ok_structure⟩
  · intro url att j st1 b1 st2 b2 h0 h1 h2
    simp [fetchJson, fetchJsonLoop, h0, h1, h2, FETCH_RETRIES,
      isRetryableHttpStatus]
  · intro url att status st body h0 hr hp
    refine ⟨?_, ?_, ?_, ?_⟩
    · simp [fetchJson, fetchJsonLoop, h0, hr, hp, FETCH_RETRIES]
    · have e : httpErrorMsg url status st body =
          "HTTP " ++ toString status ++
            (" " ++ st ++ " for " ++ url ++ " :: " ++ jsSlice body 300) := by
        simp only [httpErrorMsg]
        apply String.ext
        simp [String.data_append]
      rw [e]
      exact containsSub_middle "HTTP " (toString status) _
    · have e : httpErrorMsg url status st body =
          ("HTTP " ++ toString status ++ " " ++ st ++ " for " ++ url ++
            " :: ") ++ jsSlice body 300 ++ "" := by
        simp only [httpErrorMsg]
        apply String.ext
        simp [String.data_append]
      rw [e]
      exact containsSub_middle _ (jsSlice body 300) ""
    · have e : (jsSlice body 300).length = (body.toList.take 300).length :=
        rfl
      rw [e]
      exact List.length_take_le 300 body.toList

/-- Witness for C2: the 503/503/200 scenario at a concrete attempt
function. -/
theorem fetchJson_retry_spec_witness :
    fetchJson "https://boards-api.greenhouse.io/v1/boards/acme/jobs"
      (fun n =>
        if n == 0 then .httpError 503 "Service Unavailable" ""
        else if n == 1 then .httpError 503 "Service Unavailable" ""
        else .success (.num 2)) = .ok (.num 2) :=
  fetchJson_retry_spec.1
    "https://boards-api.greenhouse.io/v1/boards/acme/jobs" _ (.num 2)
    "Service Unavailable" "" "Service Unavailable" "" rfl rfl rfl

/-! ## C6 — run orchestration and error accounting

Embeds `processUserFeeds` (index.js:655-748).  One feed's processing is
summarised by its outcome: `.ok (processed, createdCount)` from
`processOneFeed`, or `.error message` when it threw; the run processes
the outcomes in order (the JavaScript counters are mutated atomically on
the single-threaded event loop, so bounded-concurrency interleaving only
permutes the order, which the claim does not constrain).  The run record
is the document at `fetchRuns/{runId}` after the merges the function
performs; `closeErr` models an exception escaping the per-feed isolation
(e.g. `bulkWriter.close()` failing), which is caught by the outer
`try`/`catch` (index.js:732-747). -/

/-- `MAX_ERROR_SAMPLES` (index.js:46). -/
def MAX_ERROR_SAMPLES : Nat := 10

/-- The fields of the run record document that `processUserFeeds`
writes. -/
structure RunRecord where
  runType : String
  status : String
  feedsCount : Nat
  processed : Nat
  createdCount : Nat
  errorsCount : Nat
  errorSamples : List (String × String)
  error : Option String
  deriving DecidableEq

/-- Mutable totals of a run while feeds are processed. -/
structure RunTotals where
  processed : Nat
  createdCount : Nat
  errorsCount : Nat
  errorSamples : List (String × String)
  deriving DecidableEq

/-- One iteration of the per-feed loop body (index.js:695-709): a
successful summary adds to the totals; a failure increments the error
count and appends one `{url, error}` sample while fewer than
`MAX_ERROR_SAMPLES` samples are stored. -/
def processFeedsStep (t : RunTotals)
    (feed : String × Except String (Nat × Nat)) : RunTotals :=
  match feed.2 with
  | .ok s =>
      { t with processed := t.processed + s.1,
               createdCount := t.createdCount + s.2 }
  | .error msg =>
      { t with errorsCount := t.errorsCount + 1,
               errorSamples :=
                 if t.errorSamples.length < MAX_ERROR_SAMPLES then
                   t.errorSamples ++ [(feed.1, msg)]
                 else t.errorSamples }

/-- The totals after all feeds have been attempted. -/
def processFeeds (feeds : List (String × Except String (Nat × Nat))) :
    RunTotals :=
  feeds.foldl processFeedsStep ⟨0, 0, 0, []⟩

/-- `processUserFeeds` (index.js:655-748): returns the final run record
and the function's own outcome (`.error` models the rethrow of an
exception escaping per-feed isolation; in that case only the failure
fields are merged, the counters keep the zeros written at the
`running` transition). -/
def processUserFeeds (runType : String)
    (feeds : List (String × Except String (Nat × Nat)))
    (closeErr : Option String) :
    RunRecord × Except String (Nat × Nat × Nat) :=
  let running : RunRecord :=
    ⟨runType, "running", feeds.length, 0, 0, 0, [], none⟩
  let t := processFeeds feeds
  match closeErr with
  | none =>
      ({ running with
          status := if t.errorsCount ≠ 0 then "done_with_errors" else "done",
          processed := t.processed,
          createdCount := t.createdCount,
          errorsCount := t.errorsCount,
          errorSamples := t.errorSamples },
        .ok (t.processed, t.createdCount, t.errorsCount))
  | some m =>
      ({ running with
          status := "failed",
          error := some m,
          errorSamples := t.errorSamples },
        .error m)

/-- Per-feed processed/created counts (0 for a failed feed). -/
def feedSummary (f : String × Except String (Nat × Nat)) : Nat × Nat :=
  match f.2 with
  | .ok s => s
  | .error _ => (0, 0)

/-- Whether a feed outcome is a failure. -/
def isFeedErr (f : String × Except String (Nat × Nat)) : Bool :=
  match f.2 with
  | .error _ => true
  | .ok _ => false

/-- Sum of per-feed processed counts. -/
def sumProcessed (feeds : List (String × Except String (Nat × Nat))) : Nat :=
  (feeds.map (fun f => (feedSummary f).1)).sum

/-- Sum of per-feed created counts. -/
def sumCreated (feeds : List (String × Except String (Nat × Nat))) : Nat :=
  (feeds.map (fun f => (feedSummary f).2)).sum

/-- Number of failed feeds. -/
def errorsOf (feeds : List (String × Except String (Nat × Nat))) : Nat :=
  (feeds.filter isFeedErr).length

/-- The `{url, error}` pairs of the failed feeds, in order. -/
def samplesOf (feeds : List (String × Except String (Nat × Nat))) :
    List (String × String) :=
  feeds.filterMap (fun f =>
    match f.2 with
    | .error m => some (f.1, m)
    | .ok _ => none)

theorem processFeeds_fold (feeds : List (String × Except String (Nat × Nat))) :
    ∀ t : RunTotals,
      feeds.foldl processFeedsStep t =
        { processed := t.processed + sumProcessed feeds,
          createdCount := t.createdCount + sumCreated feeds,
          errorsCount := t.errorsCount + errorsOf feeds,
          errorSamples := t.errorSamples ++
            (samplesOf feeds).take
              (MAX_ERROR_SAMPLES - t.errorSamples.length) } := by
  induction feeds with
  | nil =>
      intro t
      simp [sumProcessed, sumCreated, errorsOf, samplesOf]
  | cons f fs ih =>
      intro t
      cases hf : f.2 with
      | ok s =>
          simp only [List.foldl_cons, processFeedsStep, hf]
          rw [ih]
          simp [sumProcessed, sumCreated, errorsOf, samplesOf, isFeedErr, hf,
            feedSummary, Nat.add_assoc]
      | error m =>
          simp only [List.foldl_cons, processFeedsStep, hf]
          rw [ih]
          by_cases hlen : t.errorSamples.length < MAX_ERROR_SAMPLES
          · rw [if_pos hlen]
            have hk : MAX_ERROR_SAMPLES - t.errorSamples.length =
                (MAX_ERROR_SAMPLES - (t.errorSamples.length + 1)) + 1 := by
              omega
            simp [sumProcessed, sumCreated, errorsOf, samplesOf, isFeedErr,
              hf, feedSummary, Nat.add_assoc, hk, List.take_succ_cons,
              Nat.add_comm 1]
          · rw [if_neg hlen]
            have hk : MAX_ERROR_SAMPLES - t.errorSamples.length = 0 := by
              omega
            simp [sumProcessed, sumCreated, errorsOf, samplesOf, isFeedErr,
              hf, feedSummary, Nat.add_assoc, hk, Nat.add_comm 1]

/-- **C6.** One feed's failure never stops the others: every feed's
outcome is accumulated, each failure increments `errorsCount` by exactly
one and contributes at most one sample (the sample list is the first
`MAX_ERROR_SAMPLES` failures, so it never exceeds 10 entries); when all
feeds have been attempted the record's status is `done` iff no feed
failed and `done_with_errors` otherwise, with `processed` and
`createdCount` the sums of the per-feed results; an exception escaping
the per-feed isolation instead marks the record `failed`, stores the
error message, and is rethrown. -/
theorem processUserFeeds_run_spec (runType : String)
    (feeds : List (String × Except String (Nat × Nat)))
    (closeErr : Option String) :
    (closeErr = none →
      (processUserFeeds runType feeds closeErr).1.status =
        (if errorsOf feeds = 0 then "done" else "done_with_errors") ∧
      (processUserFeeds runType feeds closeErr).1.processed =
        sumProcessed feeds ∧
      (processUserFeeds runType feeds closeErr).1.createdCount =
        sumCreated feeds ∧
      (processUserFeeds runType feeds closeErr).1.errorsCount =
        errorsOf feeds ∧
      (processUserFeeds runType feeds closeErr).1.errorSamples =
        (samplesOf feeds).take MAX_ERROR_SAMPLES ∧
      (processUserFeeds runType feeds closeErr).1.errorSamples.length ≤
        MAX_ERROR_SAMPLES ∧
      (processUserFeeds runType feeds closeErr).2 =
        .ok (sumProcessed feeds, sumCreated feeds, errorsOf feeds)) ∧
    (∀ m, closeErr = some m →
      (processUserFeeds runType feeds closeErr).1.status = "failed" ∧
      (processUserFeeds runType feeds closeErr).1.error = some m ∧
      (processUserFeeds runType feeds closeErr).1.processed = 0 ∧
      (processUserFeeds runType feeds closeErr).2 = .error m) := by
  have hfold : processFeeds feeds =
      { processed := sumProcessed feeds, createdCount := sumCreated feeds,
        errorsCount := errorsOf feeds,
        errorSamples := (samplesOf feeds).take MAX_ERROR_SAMPLES } := by
    have := processFeeds_fold feeds ⟨0, 0, 0, []⟩
    simpa [processFeeds] using this
  constructor
  · rintro rfl
    refine ⟨?_, ?_, ?_, ?_, ?_, ?_, ?_⟩
    · simp only [processUserFeeds, hfold]
      by_cases he : errorsOf feeds = 0 <;> simp [he]
    · simp [processUserFeeds, hfold]
    · simp [processUserFeeds, hfold]
    · simp [processUserFeeds, hfold]
    · simp [processUserFeeds, hfold]
    · simp only [processUserFeeds, hfold]
      rw [List.length_take]
      omega
    · simp [processUserFeeds, hfold]
  · rintro m rfl
    refine ⟨?_, ?_, ?_, ?_⟩ <;> simp [processUserFeeds, hfold]

/-- Witness for C6 at a concrete feed list: a failing middle feed does
not stop the others and flips the status. -/
theorem processUserFeeds_run_spec_witness :
    (processUserFeeds "manual"
      [("u1", .ok (2, 1)), ("u2", .error "HTTP 404"), ("u3", .ok (3, 0))]
      none).1.status = "done_with_errors" ∧
    (processUserFeeds "manual"
      [("u1", .ok (2, 1)), ("u2", .error "HTTP 404"), ("u3", .ok (3, 0))]
      none).1.processed = 5 ∧
    (processUserFeeds "manual"
      [("u1", .ok (2, 1)), ("u2", .error "HTTP 404"), ("u3", .ok (3, 0))]
      none).1.errorsCount = 1 := by
  have h := (processUserFeeds_run_spec "manual"
    [("u1", .ok (2, 1)), ("u2", .error "HTTP 404"), ("u3", .ok (3, 0))]
    none).1 rfl
  refine ⟨?_, ?_, ?_⟩
  · rw [h.1]; decide
  · rw [h.2.1]; decide
  · rw [h.2.2.2.1]; decide

/-! ## C7 — retention purge

Embeds `cutoffTimestampRetentionNow` (index.js:153-156) and
`purgeOldJobsForUser` (index.js:751-833).  A stored job document is
reduced to the fields the purge touches: document id and the
`updatedAtTs` freshness timestamp (epoch milliseconds).  The Firestore
query `where updatedAtTs < cutoff, orderBy updatedAtTs asc, limit 400`
is the first `CLEANUP_QUERY_LIMIT` documents of the matching set sorted
ascending by timestamp (ties broken by document id, as Firestore does);
`bulkWriter.delete` removes the page's documents by id, and the loop's
effect is modelled with the deletes applied before the next query reads.
The loop gets fuel `store.length + 1`, proven sufficient. -/

/-- A stored job document as seen by the retention purge. -/
structure JobDoc where
  id : String
  ts : Int
  deriving DecidableEq

/-- `RETENTION_WINDOW_MS` (index.js:41): 21 days. -/
def RETENTION_WINDOW_MS : Int := 21 * 24 * 60 * 60 * 1000

/-- `CLEANUP_QUERY_LIMIT` (index.js:43). -/
def CLEANUP_QUERY_LIMIT : Nat := 400

/-- `cutoffTimestampRetentionNow` (index.js:153-156). -/
def cutoffTimestampRetentionNow (nowMs : Int) : Int :=
  nowMs - RETENTION_WINDOW_MS

/-- Query order: ascending `updatedAtTs`, ties by document id. -/
def docLe (a b : JobDoc) : Bool :=
  a.ts < b.ts || (a.ts == b.ts && a.id ≤ b.id)

/-- Insertion into a sorted list (ordering model of the query). -/
def insertDoc (d : JobDoc) : List JobDoc → List JobDoc
  | [] => [d]
  | x :: xs => if docLe d x then d :: x :: xs else x :: insertDoc d xs

/-- Sort by `docLe` (ordering model of the query). -/
def sortDocs : List JobDoc → List JobDoc
  | [] => []
  | d :: ds => insertDoc d (sortDocs ds)

/-- The query predicate `updatedAtTs < cutoff` (strict). -/
def matchingDoc (cutoff : Int) (d : JobDoc) : Bool := decide (d.ts < cutoff)

/-- One query page (index.js:786-790). -/
def purgePage (cutoff : Int) (store : List JobDoc) : List JobDoc :=
  (sortDocs (store.filter (matchingDoc cutoff))).take CLEANUP_QUERY_LIMIT

/-- The `while (true)` loop of index.js:785-800, with explicit fuel
(`none` = fuel exhausted, which `purgeLoop_spec` shows never happens
with fuel `store.length + 1`). -/
def purgeLoop (cutoff : Int) : Nat → List JobDoc → Nat →
    Option (List JobDoc × Nat)
  | 0, _, _ => none
  | fuel + 1, store, deleted =>
      let snap := purgePage cutoff store
      if snap.isEmpty then some (store, deleted)
      else
        let store' :=
          store.filter (fun d => !(snap.any (fun p => p.id == d.id)))
        let deleted' := deleted + snap.length
        if snap.length < CLEANUP_QUERY_LIMIT then some (store', deleted')
        else purgeLoop cutoff fuel store' deleted'

/-- The run record written by the purge. -/
structure PurgeRunRecord where
  runType : String
  status : String
  deleted : Nat
  deriving DecidableEq

/-- `purgeOldJobsForUser` (index.js:751-833): runs the delete loop from
`now` minus the retention window and records the `deleted` counter in
the run record. -/
def purgeOldJobsForUser (runType : String) (nowMs : Int)
    (store : List JobDoc) : Option (List JobDoc × PurgeRunRecord) :=
  let cutoffTs := cutoffTimestampRetentionNow nowMs
  match purgeLoop cutoffTs (store.length + 1) store 0 with
  | none => none
  | some (store', deleted) => some (store', ⟨runType, "done", deleted⟩)

theorem insertDoc_perm (d : JobDoc) (l : List JobDoc) :
    List.Perm (insertDoc d l) (d :: l) := by
  induction l with
  | nil => exact List.Perm.refl _
  | cons x xs ih =>
      by_cases h : docLe d x = true
      · simp [insertDoc, h]
      · simp only [insertDoc, if_neg h]
        exact (ih.cons x).trans (List.Perm.swap d x xs)

theorem sortDocs_perm (l : List JobDoc) : List.Perm (sortDocs l) l := by
  induction l with
  | nil => exact List.Perm.refl _
  | cons d ds ih => exact (insertDoc_perm d (sortDocs ds)).trans (ih.cons d)

theorem length_filter_split {α : Type} (p : α → Bool) (l : List α) :
    (l.filter p).length + (l.filter (fun a => !p a)).length = l.length := by
  induction l with
  | nil => rfl
  | cons x xs ih =>
      by_cases h : p x = true
      · simp [List.filter_cons, h, ← ih]
        omega
      · have h' : p x = false := by simpa using h
        simp [List.filter_cons, h', ← ih]
        omega

theorem purgePage_length (cutoff : Int) (store : List JobDoc) :
    (purgePage cutoff store).length =
      min CLEANUP_QUERY_LIMIT (store.filter (matchingDoc cutoff)).length := by
  simp [purgePage, List.length_take,
    (sortDocs_perm (store.filter (matchingDoc cutoff))).length_eq]

theorem purgePage_subset {cutoff : Int} {store : List JobDoc} {d : JobDoc}
    (hd : d ∈ purgePage cutoff store) :
    d ∈ store.filter (matchingDoc cutoff) :=
  ((sortDocs_perm (store.filter (matchingDoc cutoff))).mem_iff).mp
    ((List.take_sublist _ _).subset hd)

theorem purgePage_nodup {cutoff : Int} {store : List JobDoc}
    (hids : (store.map JobDoc.id).Nodup) :
    (purgePage cutoff store).Nodup := by
  have hstore : store.Nodup := List.Nodup.of_map _ hids
  have hm : (store.filter (matchingDoc cutoff)).Nodup :=
    List.Nodup.filter _ hstore
  have hsort : (sortDocs (store.filter (matchingDoc cutoff))).Nodup :=
    (sortDocs_perm _).symm.nodup hm
  exact hsort.sublist (List.take_sublist _ _)

theorem purgePage_any_iff {cutoff : Int} {store : List JobDoc}
    (hids : (store.map JobDoc.id).Nodup) {d : JobDoc} (hd : d ∈ store) :
    ((purgePage cutoff store).any (fun q => q.id == d.id) = true) ↔
      d ∈ purgePage cutoff store := by
  constructor
  · intro h
    rcases List.any_eq_true.mp h with ⟨q, hq, hbeq⟩
    have hqid : q.id = d.id := by simpa using hbeq
    have hqstore : q ∈ store :=
      (List.mem_filter.mp (purgePage_subset hq)).1
    have : q = d := List.inj_on_of_nodup_map hids hqstore hd hqid
    exact this ▸ hq
  · intro h
    exact List.any_eq_true.mpr ⟨d, h, by simp⟩

theorem purgePage_filter_any_perm {cutoff : Int} {store : List JobDoc}
    (hids : (store.map JobDoc.id).Nodup) :
    List.Perm
      ((store.filter (matchingDoc cutoff)).filter
        (fun d => (purgePage cutoff store).any (fun q => q.id == d.id)))
      (purgePage cutoff store) := by
  have hstore : store.Nodup := List.Nodup.of_map _ hids
  have hm : (store.filter (matchingDoc cutoff)).Nodup :=
    List.Nodup.filter _ hstore
  have h1 : ((store.filter (matchingDoc cutoff)).filter
      (fun d => (purgePage cutoff store).any (fun q => q.id == d.id))).Nodup :=
    List.Nodup.filter _ hm
  have h2 : (purgePage cutoff store).Nodup := purgePage_nodup hids
  apply List.perm_of_nodup_nodup_toFinset_eq h1 h2
  apply Finset.ext
  intro x
  simp only [List.mem_toFinset, List.mem_filter]
  constructor
  · rintro ⟨⟨hxs, hxp⟩, hany⟩
    exact (purgePage_any_iff hids hxs).mp hany
  · intro hx
    have hxm : x ∈ store.filter (matchingDoc cutoff) := purgePage_subset hx
    exact ⟨List.mem_filter.mp hxm,
      (purgePage_any_iff hids (List.mem_filter.mp hxm).1).mpr hx⟩

theorem purge_deleted_notMatching {cutoff : Int} {store : List JobDoc}
    (hids : (store.map JobDoc.id).Nodup) :
    (store.filter
        (fun d => !((purgePage cutoff store).any (fun q => q.id == d.id)))).filter
      (fun d => !(matchingDoc cutoff d)) =
    store.filter (fun d => !(matchingDoc cutoff d)) := by
  rw [List.filter_filter]
  apply List.filter_congr
  intro d hd
  cases hp : matchingDoc cutoff d with
  | true => simp
  | false =>
      simp only [hp, Bool.not_false, Bool.true_and]
      have : (purgePage cutoff store).any (fun q => q.id == d.id) = false := by
        cases hany : (purgePage cutoff store).any (fun q => q.id == d.id) with
        | false => rfl
        | true =>
            have hmem := (purgePage_any_iff hids hd).mp hany
            have := (List.mem_filter.mp (purgePage_subset hmem)).2
            rw [hp] at this
            exact Bool.noConfusion this
      simp [this]

theorem purge_deleted_matching_length {cutoff : Int} {store : List JobDoc}
    (hids : (store.map JobDoc.id).Nodup) :
    ((store.filter
        (fun d => !((purgePage cutoff store).any (fun q => q.id == d.id)))).filter
      (matchingDoc cutoff)).length + (purgePage cutoff store).length =
    (store.filter (matchingDoc cutoff)).length := by
  rw [List.filter_filter]
  have e1 : store.filter
      (fun a => matchingDoc cutoff a &&
        !((purgePage cutoff store).any (fun q => q.id == a.id))) =
      (store.filter (matchingDoc cutoff)).filter
        (fun a => !((purgePage cutoff store).any (fun q => q.id == a.id))) := by
    rw [List.filter_filter]
    apply List.filter_congr
    intro d _
    exact Bool.and_comm _ _
  rw [e1]
  have hsplit := length_filter_split
    (fun a => (purgePage cutoff store).any (fun q => q.id == a.id))
    (store.filter (matchingDoc cutoff))
  have hperm := (@purgePage_filter_any_perm cutoff store hids).length_eq
  omega

theorem purge_store'_ids_nodup {cutoff : Int} {store : List JobDoc}
    (hids : (store.map JobDoc.id).Nodup) :
    ((store.filter
        (fun d => !((purgePage cutoff store).any (fun q => q.id == d.id)))).map
      JobDoc.id).Nodup :=
  hids.sublist ((List.filter_sublist store).map JobDoc.id)

set_option maxRecDepth 4000 in
theorem purgeLoop_spec (cutoff : Int) :
    ∀ (fuel : Nat) (store : List JobDoc) (deleted : Nat),
      (store.map JobDoc.id).Nodup →
      (store.filter (matchingDoc cutoff)).length < fuel →
      purgeLoop cutoff fuel store deleted =
        some (store.filter (fun d => !(matchingDoc cutoff d)),
          deleted + (store.filter (matchingDoc cutoff)).length) := by
  intro fuel
  induction fuel with
  | zero =>
      intro store deleted _ h
      exact absurd h (by omega)
  | succ fuel ih =>
      intro store deleted hids hlt
      have hlen := purgePage_length cutoff store
      simp only [purgeLoop]
      by_cases hempty : (purgePage cutoff store).isEmpty = true
      · rw [if_pos hempty]
        have hnil : purgePage cutoff store = [] := List.isEmpty_iff.mp hempty
        have hm0 : (store.filter (matchingDoc cutoff)).length = 0 := by
          rw [hnil] at hlen
          simp only [List.length_nil] at hlen
          have h4 : CLEANUP_QUERY_LIMIT = 400 := rfl
          omega
        have hall : ∀ d ∈ store, ¬ matchingDoc cutoff d = true :=
          List.filter_eq_nil_iff.mp (List.length_eq_zero.mp hm0)
        have hself : store.filter (fun d => !(matchingDoc cutoff d)) = store :=
          List.filter_eq_self.mpr (fun d hd => by simp [hall d hd])
        rw [hself, hm0]
        rfl
      · rw [if_neg hempty]
        by_cases hsmall :
            (purgePage cutoff store).length < CLEANUP_QUERY_LIMIT
        · rw [if_pos hsmall]
          have hmlen : (purgePage cutoff store).length =
              (store.filter (matchingDoc cutoff)).length := by
            omega
          have hmle : (store.filter (matchingDoc cutoff)).length <
              CLEANUP_QUERY_LIMIT := by omega
          have hmemiff : ∀ d ∈ store,
              (d ∈ purgePage cutoff store ↔ matchingDoc cutoff d = true) := by
            intro d hd
            constructor
            · intro h
              exact (List.mem_filter.mp (purgePage_subset h)).2
            · intro hp
              have hdm : d ∈ store.filter (matchingDoc cutoff) :=
                List.mem_filter.mpr ⟨hd, hp⟩
              have hds : d ∈ sortDocs (store.filter (matchingDoc cutoff)) :=
                (sortDocs_perm _).mem_iff.mpr hdm
              have htake :
                  (sortDocs (store.filter (matchingDoc cutoff))).take
                    CLEANUP_QUERY_LIMIT =
                  sortDocs (store.filter (matchingDoc cutoff)) := by
                apply List.take_of_length_le
                rw [(sortDocs_perm _).length_eq]
                omega
              rw [purgePage, htake]
              exact hds
          have hall : store.filter
              (fun d => !((purgePage cutoff store).any
                (fun q => q.id == d.id))) =
              store.filter (fun d => !(matchingDoc cutoff d)) := by
            apply List.filter_congr
            intro d hd
            have h1 := @purgePage_any_iff cutoff store hids d hd
            have h2 := hmemiff d hd
            cases hany : (purgePage cutoff store).any
              (fun q => q.id == d.id) with
            | true =>
                have := h2.mp (h1.mp hany)
                simp [this]
            | false =>
                have : ¬ matchingDoc cutoff d = true := by
                  intro hp
                  have := h1.mpr (h2.mpr hp)
                  rw [hany] at this
                  exact Bool.noConfusion this
                simp [Bool.not_eq_true] at this
                simp [this]
          rw [hall, hmlen]
        · rw [if_neg hsmall]
          have h400 : (purgePage cutoff store).length = CLEANUP_QUERY_LIMIT :=
            by omega
          have hids' := @purge_store'_ids_nodup cutoff store hids
          have hadd := @purge_deleted_matching_length cutoff store hids
          have h4 : CLEANUP_QUERY_LIMIT = 400 := rfl
          have hlt' : ((store.filter
              (fun d => !((purgePage cutoff store).any
                (fun q => q.id == d.id)))).filter
              (matchingDoc cutoff)).length < fuel := by
            omega
          rw [ih _ _ hids' hlt']
          simp only [Option.some.injEq, Prod.mk.injEq]
          exact ⟨@purge_deleted_notMatching cutoff store hids, by omega⟩

/-- **C7.** The retention purge deletes exactly the job documents whose
`updatedAtTs` is strictly older than `now` minus the 21-day retention
window (pages of at most 400, ordered ascending, looping until a short
page), the run record's `deleted` counter equals the number of deleted
documents, and concretely a 22-day-old record is deleted while a
20-day-old record is retained. -/
theorem purgeOldJobsForUser_spec (runType : String) (nowMs : Int)
    (store : List JobDoc) (hids : (store.map JobDoc.id).Nodup) :
    (∀ d : JobDoc, matchingDoc (cutoffTimestampRetentionNow nowMs) d =
      decide (d.ts < nowMs - RETENTION_WINDOW_MS)) ∧
    purgeOldJobsForUser runType nowMs store =
      some (store.filter
          (fun d => !(matchingDoc (cutoffTimestampRetentionNow nowMs) d)),
        ⟨runType, "done",
          (store.filter
            (matchingDoc (cutoffTimestampRetentionNow nowMs))).length⟩) ∧
    purgeOldJobsForUser "cleanup" 1900800000
        [⟨"old", 0⟩, ⟨"fresh", 172800000⟩] =
      some ([⟨"fresh", 172800000⟩], ⟨"cleanup", "done", 1⟩) := by
  refine ⟨fun d => rfl, ?_, by decide⟩
  have hfuel : (store.filter
      (matchingDoc (cutoffTimestampRetentionNow nowMs))).length <
      store.length + 1 := by
    have := List.length_filter_le
      (matchingDoc (cutoffTimestampRetentionNow nowMs)) store
    omega
  rw [purgeOldJobsForUser,
    purgeLoop_spec (cutoffTimestampRetentionNow nowMs) (store.length + 1)
      store 0 hids hfuel]
  simp

/-- Witness for C7 at a concrete one-document store (21 days = 22-day-old
document is purged and counted). -/
theorem purgeOldJobsForUser_spec_witness :
    purgeOldJobsForUser "cleanup_manual" 1900800000 [⟨"a", 0⟩] =
      some ([], ⟨"cleanup_manual", "done", 1⟩) := by
  have h := (purgeOldJobsForUser_spec "cleanup_manual" 1900800000
    [⟨"a", 0⟩] (by decide)).2.1
  rw [h]
  decide

/-! ## C8 — metadata normalization

Embeds `normalizeMetadata` (index.js:286-323).  A raw metadata entry
carries an optional `name` (`none` also models a null entry, which the
source skips identically via `!item || !item.name`), a JSON `value`
(`JVal.null` models both `null` and `undefined`) and an optional
`value_type`.  The `Number` builtin used for currency amounts is
modelled by `jsNumber`: numbers and booleans coerce directly, `null`
gives 0, strings parse as optionally signed decimal numerals (`none`
models `NaN`; exotic inputs — hex, exponents, `Infinity`, and JS's
object/array `toString` coercion — are mapped to `none` and no theorem
below depends on them).

The accumulator `kv` is a plain JavaScript object literal `{}`, so the
guard `kv[name] === undefined` (index.js:316) is false not only for
names already assigned but also for properties inherited from
`Object.prototype` (e.g. `"toString"`, `"constructor"`, and the
`"__proto__"` accessor) — `kvHasName` models exactly that lookup. -/

/-- JavaScript truthiness of a JSON value (NaN is not representable in
`JVal`, see `jsNumber`). -/
def truthy : JVal → Bool
  | .null => false
  | .bool b => b
  | .num q => decide (q ≠ 0)
  | .str s => decide (s ≠ "")
  | .arr _ => true
  | .obj _ => true

/-- Property read `fields[name]` on a parsed JSON object (`.null` for a
missing property, modelling `undefined`). -/
def objGet (fields : List (String × JVal)) (name : String) : JVal :=
  match fields.find? (fun kv => kv.1 == name) with
  | some kv => kv.2
  | none => .null

/-- Digit list to number. -/
def natOfDigits (l : List Char) : Nat :=
  l.foldl (fun a c => a * 10 + (c.toNat - 48)) 0

/-- Unsigned decimal numeral: digits with an optional fractional part
(`"5."`, `".5"` and `"5.25"` are all accepted, as by `Number`). -/
def parseUnsignedDec (l : List Char) : Option ℚ :=
  let intPart := l.takeWhile Char.isDigit
  let rest := l.dropWhile Char.isDigit
  match rest with
  | [] => if intPart.isEmpty then none else some (natOfDigits intPart)
  | '.' :: frac =>
      if frac.all Char.isDigit && !(intPart.isEmpty && frac.isEmpty) then
        some ((natOfDigits intPart : ℚ) +
          (natOfDigits frac : ℚ) / ((10 : ℚ) ^ frac.length))
      else none
  | _ => none

/-- The `Number(x)` coercion of the decimal fragment (see section
comment). -/
def jsNumber : JVal → Option ℚ
  | .num q => some q
  | .bool b => some (if b then 1 else 0)
  | .null => some 0
  | .str s =>
      match (jsTrim s).toList with
      | [] => some 0
      | '+' :: rest => parseUnsignedDec rest
      | '-' :: rest => (parseUnsignedDec rest).map (fun q => -q)
      | l => parseUnsignedDec l
  | .arr _ => none
  | .obj _ => none

/-- A raw metadata entry. -/
structure MetaItem where
  name : Option String := none
  value : JVal := .null
  value_type : Option String := none

/-- The enumerable-or-not properties inherited by a plain object literal
from `Object.prototype` (plus the `__proto__` accessor), i.e. the names
`n` with `({})[n] !== undefined`. -/
def objectPrototypeProps : List String :=
  ["constructor", "hasOwnProperty", "isPrototypeOf",
   "propertyIsEnumerable", "toLocaleString", "toString", "valueOf",
   "__defineGetter__", "__defineSetter__", "__lookupGetter__",
   "__lookupSetter__", "__proto__"]

/-- `kv[name] !== undefined` for the accumulator object (own property or
inherited from `Object.prototype`). -/
def kvHasName (kv : List (String × JVal)) (name : String) : Bool :=
  kv.any (fun e => e.1 == name) || objectPrototypeProps.contains name

/-- `!item || !item.name` (index.js:293). -/
def metaNameFalsy : Option String → Bool
  | none => true
  | some n => n == ""

/-- `value === null || value === undefined` (index.js:297). -/
def isNullVal : JVal → Bool
  | .null => true
  | _ => false

/-- Blank-string or empty-array value (index.js:298-299). -/
def isBlankOrEmpty : JVal → Bool
  | .str s => jsTrim s == ""
  | .arr l => l.isEmpty
  | _ => false

/-- Trim an array element when it is a string (index.js:309). -/
def trimStrElem : JVal → JVal
  | .str s => .str (jsTrim s)
  | v => v

/-- The value normalization of index.js:301-314: currency objects get a
`unit` (defaulted to `"USD"` when falsy) and an `amount` coerced to a
number when `Number` yields a finite value; arrays trim string elements
and drop falsy ones; other objects pass through; strings are trimmed;
numbers and booleans are unchanged. -/
def normalizeMetaValue (vt : Option String) (value : JVal) : JVal :=
  match value with
  | .obj fields =>
      if vt == some "currency" then
        let unitV := objGet fields "unit"
        let unit := if truthy unitV then unitV else .str "USD"
        let amountV := objGet fields "amount"
        match amountV with
        | .null => .obj [("unit", unit), ("amount", .null)]
        | a =>
            match jsNumber a with
            | some q => .obj [("unit", unit), ("amount", .num q)]
            | none => .obj [("unit", unit), ("amount", a)]
      else value
  | .arr l => .arr ((l.map trimStrElem).filter truthy)
  | .str s => .str (jsTrim s)
  | _ => value

/-- An entry the loop skips before normalization (index.js:293-299). -/
def metaSkippable (it : MetaItem) : Bool :=
  metaNameFalsy it.name || isNullVal it.value || isBlankOrEmpty it.value

/-- The loop of index.js:292-320 with its two accumulators. -/
def normalizeMetadataGo : List MetaItem → List (String × JVal) →
    List (String × JVal) →
    List (String × JVal) × List (String × JVal)
  | [], kv, list => (kv, list)
  | it :: rest, kv, list =>
      if metaNameFalsy it.name then normalizeMetadataGo rest kv list
      else
        let name := jsTrim (it.name.getD "")
        if isNullVal it.value || isBlankOrEmpty it.value then
          normalizeMetadataGo rest kv list
        else
          let nv := normalizeMetaValue it.value_type it.value
          if kvHasName kv name then normalizeMetadataGo rest kv list
          else normalizeMetadataGo rest (kv ++ [(name, nv)])
            (list ++ [(name, nv)])

/-- `normalizeMetadata` (index.js:286-323): returns
`(metadataKV, metadataList)`, the key→value map in insertion order and
the ordered `{name, value}` list. -/
def normalizeMetadata (items : List MetaItem) :
    List (String × JVal) × List (String × JVal) :=
  normalizeMetadataGo items [] []

/-- The first entry of the raw list that survives the skip checks and
has the given trimmed name. -/
def firstHit (items : List MetaItem) (n : String) : Option MetaItem :=
  items.find? (fun it => !metaSkippable it && jsTrim (it.name.getD "") == n)

/-- Lookup by name in an association list (first match). -/
def listLookup (l : List (String × JVal)) (n : String) : Option JVal :=
  (l.find? (fun e => e.1 == n)).map (fun e => e.2)

theorem normalizeMetadataGo_fst_eq_snd :
    ∀ (items : List MetaItem) (acc : List (String × JVal)),
      (normalizeMetadataGo items acc acc).1 =
        (normalizeMetadataGo items acc acc).2 := by
  intro items
  induction items with
  | nil => intro acc; rfl
  | cons it rest ih =>
      intro acc
      simp only [normalizeMetadataGo]
      by_cases h1 : metaNameFalsy it.name = true
      · simp [h1, ih]
      · have hb1 : metaNameFalsy it.name = false := by simpa using h1
        by_cases h2 : (isNullVal it.value || isBlankOrEmpty it.value) = true
        · simp [hb1, h2, ih]
        · have hb2 : (isNullVal it.value || isBlankOrEmpty it.value) = false :=
            by simpa using h2
          by_cases h3 : kvHasName acc (jsTrim (it.name.getD "")) = true
          · simp [hb1, hb2, h3, ih]
          · have hb3 : kvHasName acc (jsTrim (it.name.getD "")) = false := by
              simpa using h3
            simp [hb1, hb2, hb3, ih]

theorem listLookup_append (a b : List (String × JVal)) (n : String) :
    listLookup (a ++ b) n = (listLookup a n).or (listLookup b n) := by
  simp only [listLookup, List.find?_append]
  cases a.find? (fun e => e.1 == n) <;> simp

theorem lookup_isSome_of_any {acc : List (String × JVal)} {n : String}
    (h : acc.any (fun e => e.1 == n) = true) :
    ∃ v, listLookup acc n = some v := by
  rcases List.any_eq_true.mp h with ⟨e, he, hbeq⟩
  cases hf : acc.find? (fun e => e.1 == n) with
  | none =>
      have := List.find?_eq_none.mp hf e he
      rw [hbeq] at this
      exact absurd rfl this
  | some e' => exact ⟨e'.2, by simp [listLookup, hf]⟩

theorem normalizeMetadataGo_lookup (n : String) :
    ∀ (items : List MetaItem) (acc : List (String × JVal)),
      (∀ e ∈ acc, objectPrototypeProps.contains e.1 = false) →
      listLookup (normalizeMetadataGo items acc acc).2 n =
        (listLookup acc n).or
          (if objectPrototypeProps.contains n = true then none
           else (firstHit items n).map
             (fun it => normalizeMetaValue it.value_type it.value)) := by
  intro items
  induction items with
  | nil =>
      intro acc _
      have hnone : (if objectPrototypeProps.contains n = true then none
          else (firstHit ([] : List MetaItem) n).map
            (fun it => normalizeMetaValue it.value_type it.value)) =
          (none : Option JVal) := by
        simp [firstHit]
      rw [hnone]
      simp [normalizeMetadataGo]
  | cons it rest ih =>
      intro acc hacc
      by_cases h1 : metaNameFalsy it.name = true
      · have hskip : metaSkippable it = true := by simp [metaSkippable, h1]
        have hf : firstHit (it :: rest) n = firstHit rest n := by
          simp [firstHit, List.find?, hskip]
        simp only [normalizeMetadataGo, h1, if_true]
        rw [ih acc hacc, hf]
      · have hb1 : metaNameFalsy it.name = false := by simpa using h1
        by_cases h2 : (isNullVal it.value || isBlankOrEmpty it.value) = true
        · have hskip : metaSkippable it = true := by
            simp only [metaSkippable, hb1, Bool.false_or]
            exact h2
          have hf : firstHit (it :: rest) n = firstHit rest n := by
            simp [firstHit, List.find?, hskip]
          simp only [normalizeMetadataGo, hb1, Bool.false_eq_true,
            if_false, h2, if_true]
          rw [ih acc hacc, hf]
        · have hb2 : (isNullVal it.value || isBlankOrEmpty it.value) = false :=
            by simpa using h2
          have hns : metaSkippable it = false := by
            simp [metaSkippable, hb1, hb2]
          by_cases h3 : kvHasName acc (jsTrim (it.name.getD "")) = true
          · simp only [normalizeMetadataGo, hb1, Bool.false_eq_true,
              if_false, hb2, h3, if_true]
            rw [ih acc hacc]
            by_cases hn : jsTrim (it.name.getD "") = n
            · have hbeq : (jsTrim (it.name.getD "") == n) = true := by
                simp [hn]
              have hf : firstHit (it :: rest) n = some it := by
                simp [firstHit, List.find?, hns, hbeq]
              rw [hf]
              have h3n : kvHasName acc n = true := hn ▸ h3
              have h3' : acc.any (fun e => e.1 == n) = true ∨
                  objectPrototypeProps.contains n = true := by
                simp only [kvHasName, Bool.or_eq_true] at h3n
                exact h3n
              rcases h3' with hown | hproto
              · obtain ⟨v, hv⟩ := lookup_isSome_of_any hown
                rw [hv]
                rfl
              · have hmem : n ∈ objectPrototypeProps := by
                  simpa using hproto
                simp [hmem]
            · have hbeq : (jsTrim (it.name.getD "") == n) = false := by
                simp [hn]
              have hf : firstHit (it :: rest) n = firstHit rest n := by
                simp [firstHit, List.find?, hns, hbeq]
              rw [hf]
          · have hb3 : kvHasName acc (jsTrim (it.name.getD "")) = false := by
              simpa using h3
            have hb3' := hb3
            simp only [kvHasName, Bool.or_eq_false_iff] at hb3'
            simp only [normalizeMetadataGo, hb1, Bool.false_eq_true,
              if_false, hb2, hb3, if_true]
            have hacc' : ∀ e ∈ acc ++
                [(jsTrim (it.name.getD ""),
                  normalizeMetaValue it.value_type it.value)],
                objectPrototypeProps.contains e.1 = false := by
              intro e he
              rcases List.mem_append.mp he with he' | he'
              · exact hacc e he'
              · rcases List.mem_singleton.mp he' with rfl
                exact hb3'.2
            rw [ih _ hacc', listLookup_append]
            by_cases hn : jsTrim (it.name.getD "") = n
            · have hbeq : (jsTrim (it.name.getD "") == n) = true := by
                simp [hn]
              have hf : firstHit (it :: rest) n = some it := by
                simp [firstHit, List.find?, hns, hbeq]
              rw [hf]
              have hnone : listLookup acc n = none := by
                cases hl : acc.find? (fun e => e.1 == n) with
                | none => simp [listLookup, hl]
                | some e =>
                    have hmem := List.mem_of_find?_eq_some hl
                    have hpe := List.find?_some hl
                    have : acc.any (fun e => e.1 == n) = true :=
                      List.any_eq_true.mpr ⟨e, hmem, hpe⟩
                    rw [← hn] at this
                    rw [this] at hb3'
                    exact absurd hb3'.1 (by simp)
              have hsingle : listLookup
                  [(jsTrim (it.name.getD ""),
                    normalizeMetaValue it.value_type it.value)] n =
                  some (normalizeMetaValue it.value_type it.value) := by
                simp [listLookup, List.find?, hn]
              rw [hnone, hsingle]
              have hprn : objectPrototypeProps.contains n = false := by
                rw [← hn]; exact hb3'.2
              simp only [hprn, Bool.false_eq_true, if_false, Option.none_or]
              rfl
            · have hbeq : (jsTrim (it.name.getD "") == n) = false := by
                simp [hn]
              have hf : firstHit (it :: rest) n = firstHit rest n := by
                simp [firstHit, List.find?, hns, hbeq]
              have hsingle : listLookup
                  [(jsTrim (it.name.getD ""),
                    normalizeMetaValue it.value_type it.value)] n =
                  none := by
                simp [listLookup, List.find?, hbeq]
              rw [hf, hsingle]
              simp

/-- **C8 counterexample.** The claim says the first occurrence of each
name is kept.  But the dedup guard `kv[name] === undefined`
(index.js:316) is evaluated on a plain object literal, and
`({})["toString"]` is the function inherited from `Object.prototype`,
not `undefined` — so a well-formed entry named `"toString"` (non-blank
string value) is silently dropped: both the map and the list come back
empty. -/
theorem normalizeMetadata_toString_dropped :
    normalizeMetadata [{ name := some "toString", value := .str "x" }] =
      ([], []) := rfl

/-- **C8 (amended).** `normalizeMetadata` skips entries with a falsy
name, null/undefined value, blank string value, or empty array value;
for every name that does not collide with an `Object.prototype` property
the output maps it to the normalized value of the *first* surviving
entry with that (trimmed) name, later duplicates being ignored, while
colliding names (e.g. `"toString"`) are always dropped — the amendment;
currency values coerce the amount to a number when `Number` yields one,
with the unit defaulting to `"USD"` when falsy; array values trim string
elements and drop falsy ones; and the key-value map and the ordered list
agree exactly. -/
theorem normalizeMetadata_spec :
    (∀ items : List MetaItem,
      (normalizeMetadata items).1 = (normalizeMetadata items).2) ∧
    (∀ (items : List MetaItem) (n : String),
      listLookup (normalizeMetadata items).2 n =
        (if objectPrototypeProps.contains n = true then none
         else (firstHit items n).map
           (fun it => normalizeMetaValue it.value_type it.value))) ∧
    (∀ (fields : List (String × JVal)) (q : ℚ),
      truthy (objGet fields "unit") = false →
      isNullVal (objGet fields "amount") = false →
      jsNumber (objGet fields "amount") = some q →
      normalizeMetaValue (some "currency") (.obj fields) =
        .obj [("unit", .str "USD"), ("amount", .num q)]) ∧
    (∀ (vt : Option String) (l : List JVal),
      normalizeMetaValue vt (.arr l) =
        .arr ((l.map trimStrElem).filter truthy) ∧
      ∀ v ∈ (l.map trimStrElem).filter truthy, truthy v = true) := by
  refine ⟨?_, ?_, ?_, ?_⟩
  · intro items
    exact normalizeMetadataGo_fst_eq_snd items []
  · intro items n
    have h := normalizeMetadataGo_lookup n items [] (by simp)
    rw [normalizeMetadata, h]
    simp [listLookup, Option.none_or]
  · intro fields q hu hnn hq
    cases ha : objGet fields "amount" with
    | null => rw [ha] at hnn; simp [isNullVal] at hnn
    | bool b => rw [ha] at hq; simp [normalizeMetaValue, ha, hu, hq]
    | num q' => rw [ha] at hq; simp [normalizeMetaValue, ha, hu, hq]
    | str s => rw [ha] at hq; simp [normalizeMetaValue, ha, hu, hq]
    | arr l => rw [ha] at hq; simp [jsNumber] at hq
    | obj f => rw [ha] at hq; simp [jsNumber] at hq
  · intro vt l
    exact ⟨rfl, fun v hv => (List.mem_filter.mp hv).2⟩

/-- Witness for C8 at a concrete metadata list: first occurrence wins
and the string value is trimmed. -/
theorem normalizeMetadata_spec_witness :
    listLookup (normalizeMetadata
      [{ name := some "Salary", value := .str " 100k " },
       { name := some "Salary", value := .str "dup" }]).2 "Salary" =
      some (.str "100k") := by
  rw [normalizeMetadata_spec.2.1]
  rfl

/-! ## C9 — content sanitization

Embeds `decodeHtmlEntities` (index.js:237-246), `removeTracking`
(index.js:252-270), `capStr` (index.js:272-277) and
`normalizeContentHtmlClean` (index.js:279-283).  `replaceAll` is the
left-to-right non-overlapping replacement (replacements are not
rescanned).  The two regex replaces are modelled by direct scanners in
the engine's search order: `/<img\b[^>]*>/gi` consumes from a
case-insensitive `<img` with a word boundary up to the next `>`, and the
per-domain anchor regex
`<a\b[^>]*href=["'][^"']*D[^"']*["'][^>]*>([\s\S]*?)<\/a>` is matched
with greedy character-class segments tried longest-first (backtracking
order) and a lazy body ending at the first case-insensitive `</a>`; a
matched anchor is replaced by its inner text (`$1`). -/

/-- `MAX_HTML_CHARS` (index.js:38). -/
def MAX_HTML_CHARS : Nat := 120000

/-- Left-to-right non-overlapping replacement of `p :: pat` by `rep`.
The fuel (first argument) only forces termination; `length + 1` suffices
since every step consumes at least one character. -/
def replaceAllL (p : Char) (pat rep : List Char) : Nat → List Char →
    List Char
  | 0, l => l
  | _, [] => []
  | fuel + 1, c :: rest =>
      if c == p && pat.isPrefixOf rest then
        rep ++ replaceAllL p pat rep fuel (rest.drop pat.length)
      else c :: replaceAllL p pat rep fuel rest

/-- `String.prototype.replaceAll` for a non-empty literal pattern. -/
def jsReplaceAll (s pat rep : String) : String :=
  match pat.toList with
  | [] => s
  | p :: ps =>
      String.mk (replaceAllL p ps rep.toList (s.toList.length + 1) s.toList)

/-- `decodeHtmlEntities` (index.js:237-246). -/
def decodeHtmlEntities (s : String) : String :=
  if s = "" then ""
  else
    jsReplaceAll (jsReplaceAll (jsReplaceAll (jsReplaceAll (jsReplaceAll
      (jsReplaceAll s "&lt;" "<") "&gt;" ">") "&amp;" "&")
      "&quot;" "\"") "&#39;" "\x27") "&nbsp;" " "

/-- Case-insensitive prefix test (ASCII). -/
def isCIPrefix : List Char → List Char → Bool
  | [], _ => true
  | _ :: _, [] => false
  | p :: ps, c :: cs => (Char.toLower c == Char.toLower p) && isCIPrefix ps cs

/-- Start of an `<img\b` tag (case-insensitive, word boundary after
`img`). -/
def imgTagStart (l : List Char) : Bool :=
  isCIPrefix "<img".toList l && wordBoundary (l.drop 4).head?

/-- Skip to just past the next `>` (the `[^>]*>` tail of the img regex);
`none` when no `>` remains, in which case the regex cannot match
there. -/
def dropToGt : List Char → Option (List Char)
  | [] => none
  | c :: rest => if c == '>' then some rest else dropToGt rest

/-- The global replace `s.replace(/<img\b[^>]*>/gi, " ")` of
index.js:255, fuel-bounded (`length + 1` suffices: every step consumes
at least one character). -/
def stripImgs : Nat → List Char → List Char
  | 0, l => l
  | _, [] => []
  | fuel + 1, c :: rest =>
      if imgTagStart (c :: rest) then
        match dropToGt (rest.drop 3) with
        | some rest' => ' ' :: stripImgs fuel rest'
        | none => c :: stripImgs fuel rest
      else c :: stripImgs fuel rest

/-- The quote class `["']` / complement `[^"']`. -/
def isQuote (c : Char) : Bool := c == '"' || c == '\x27'

/-- All ways to split off a (possibly shorter) prefix of the maximal run
of characters satisfying `f`, longest prefix first — the backtracking
order of a greedy character-class star. -/
def splitsDesc (f : Char → Bool) (l : List Char) : List (List Char × List Char) :=
  let m := l.takeWhile f
  let rest := l.drop m.length
  (List.range (m.length + 1)).map (fun i =>
    let k := m.length - i
    (m.take k, m.drop k ++ rest))

/-- First hit of a partial function over a list (the order of
backtracking alternatives). -/
def firstSome {α β : Type} (g : α → Option β) : List α → Option β
  | [] => none
  | a :: as =>
      match g a with
      | some b => some b
      | none => firstSome g as

/-- One backtracking alternative of the `[^"']*D[^"']*["'][^>]*>` part:
given a split of the quote-free run, require the domain (case-
insensitively) at the split point, then the closing quote, then skip to
`>`. -/
def anchorInnerTry (dom : List Char) (s2 : List Char × List Char) :
    Option (List Char) :=
  let r4 := s2.2
  if isCIPrefix dom r4 then
    let r5 := r4.drop dom.length
    let r6 := r5.drop (r5.takeWhile (fun c => !(isQuote c))).length
    match r6 with
    | q2 :: r7 =>
        if isQuote q2 then
          match r7.drop (r7.takeWhile (fun c => !(c == '>'))).length with
          | gt :: r8 => if gt == '>' then some r8 else none
          | [] => none
        else none
    | [] => none
  else none

/-- One backtracking alternative of the `[^>]*href=["']...` part: given
a split of the `>`-free run, require `href=` (case-insensitively) and an
opening quote at the split point, then search the quote-free run for the
domain. -/
def anchorOpenTry (dom : List Char) (split : List Char × List Char) :
    Option (List Char) :=
  let r1 := split.2
  if isCIPrefix "href=".toList r1 then
    let r2 := r1.drop 5
    match r2 with
    | q :: r3 =>
        if isQuote q then
          firstSome (anchorInnerTry dom) (splitsDesc (fun c => !(isQuote c)) r3)
        else none
    | [] => none
  else none

/-- Match `[^>]*href=["'][^"']*D[^"']*["'][^>]*>` (the open-tag part of
the anchor regex after `<a\b`), returning the rest after `>`. -/
def matchAnchorOpen (dom : List Char) (l : List Char) : Option (List Char) :=
  firstSome (anchorOpenTry dom) (splitsDesc (fun c => !(c == '>')) l)

/-- Lazy body match up to the first case-insensitive `</a>`: returns the
inner text and the rest after the close tag. -/
def findCloseA : List Char → Option (List Char × List Char)
  | [] => none
  | c :: rest =>
      if isCIPrefix "</a>".toList (c :: rest) then some ([], rest.drop 3)
      else
        match findCloseA rest with
        | some (body, after) => some (c :: body, after)
        | none => none

/-- Full anchor-regex match at the current position: inner text and rest
after the match. -/
def matchAnchorAt (dom : List Char) (l : List Char) :
    Option (List Char × List Char) :=
  if isCIPrefix "<a".toList l && wordBoundary (l.drop 2).head? then
    match matchAnchorOpen dom (l.drop 2) with
    | some afterGt => findCloseA afterGt
    | none => none
  else none

/-- Global replacement of tracker anchors by their inner text for one
domain (`$1`), continuing after each match; the fuel bounds the scan
(`length + 1` suffices: every step consumes at least one character). -/
def replaceAnchors (dom : List Char) : Nat → List Char → List Char
  | 0, l => l
  | _, [] => []
  | fuel + 1, c :: rest =>
      match matchAnchorAt dom (c :: rest) with
      | some (body, after) => body ++ replaceAnchors dom fuel after
      | none => c :: replaceAnchors dom fuel rest

/-- The tracker domain list (index.js:257-264). -/
def trackerDomains : List String :=
  ["click.appcast.io", "track.jobadx.com", "jobadx.com", "appcast.io",
   "doubleclick.net", "googlesyndication.com"]

/-- `removeTracking` (index.js:252-270): strip image tags (each becomes
one space), then unwrap anchors of each tracker domain in turn. -/
def removeTracking (html : String) : String :=
  if html = "" then ""
  else
    let afterImg := stripImgs (html.toList.length + 1) html.toList
    String.mk (trackerDomains.foldl
      (fun s d => replaceAnchors d.toList (s.length + 1) s) afterImg)

/-- `capStr` (index.js:272-277). -/
def capStr (s : String) (n : Nat) : String :=
  if s.length ≤ n then s else String.mk (s.toList.take n)

/-- `normalizeContentHtmlClean` (index.js:279-283). -/
def normalizeContentHtmlClean (rawContent : String) : String :=
  capStr (removeTracking (decodeHtmlEntities rawContent)) MAX_HTML_CHARS

/-! ### Anchor-unwrapping: character classes and scanning lemmas

To state the anchor clause of C9 for arbitrary anchors we classify the
characters that may appear inside a tag (`tagSafeC`: not `>`, not a
quote, not case-insensitively `<`) and outside any tag (`ltFree`: not
case-insensitively `<`), and build a family of well-formed documents
made of clean segments and anchor tags. -/

/-- A character allowed inside a tag between delimiters: not `>`, not a
quote, and not (case-insensitively) `<`. -/
def tagSafeC (c : Char) : Bool :=
  !(c == '>') && !(isQuote c) && !(Char.toLower c == '<')

/-- All characters of the list are `tagSafeC`. -/
def tagSafe (l : List Char) : Bool := l.all tagSafeC

/-- No character of the list is (case-insensitively) `<`. -/
def ltFree (l : List Char) : Bool := l.all (fun c => !(Char.toLower c == '<'))

/-- No character of the list is `&` (so entity decoding is the
identity). -/
def ampFree (l : List Char) : Bool := l.all (fun c => !(c == '&'))

/-- Case-insensitive infix test: some suffix of `l` starts with `pat`
(case-insensitively). -/
def containsCI : List Char → List Char → Bool
  | [], pat => pat.isEmpty
  | l@(_ :: t), pat => isCIPrefix pat l || containsCI t pat

theorem isQuote_cases {q : Char} (h : isQuote q = true) :
    q = '"' ∨ q = '\x27' := by
  simp only [isQuote, Bool.or_eq_true, beq_iff_eq] at h
  exact h

theorem ltFree_append {a b : List Char} (ha : ltFree a = true)
    (hb : ltFree b = true) : ltFree (a ++ b) = true := by
  simp only [ltFree, List.all_append, Bool.and_eq_true] at *
  exact ⟨ha, hb⟩

theorem ltFree_mem {l : List Char} (h : ltFree l = true) {c : Char}
    (hc : c ∈ l) : (Char.toLower c == '<') = false := by
  simp only [ltFree, List.all_eq_true] at h
  simpa using h c hc

theorem tagSafe_mem {l : List Char} (h : tagSafe l = true) {c : Char}
    (hc : c ∈ l) : (c == '>') = false ∧ isQuote c = false ∧
      (Char.toLower c == '<') = false := by
  simp only [tagSafe, List.all_eq_true] at h
  have := h c hc
  simp only [tagSafeC, Bool.and_eq_true, Bool.not_eq_true'] at this
  exact ⟨this.1.1, this.1.2, this.2⟩

theorem ltFree_of_tagSafe {l : List Char} (h : tagSafe l = true) :
    ltFree l = true := by
  simp only [ltFree, List.all_eq_true]
  intro c hc
  simp [(tagSafe_mem h hc).2.2]

theorem isCIPrefix_self_append (pat Z : List Char) :
    isCIPrefix pat (pat ++ Z) = true := by
  induction pat with
  | nil => rfl
  | cons p ps ih => simp [isCIPrefix, ih]

theorem isCIPrefix_append_of_le (pat : List Char) :
    ∀ (l Z : List Char), pat.length ≤ l.length →
      isCIPrefix pat (l ++ Z) = isCIPrefix pat l := by
  induction pat with
  | nil => intro l Z _; rfl
  | cons p ps ih =>
      intro l Z h
      cases l with
      | nil => simp at h
      | cons c cs =>
          simp only [List.cons_append, List.append_eq, isCIPrefix]
          rw [ih cs Z (by simpa using h)]

theorem isCIPrefix_block (pat : List Char) (z : Char)
    (hz : ∀ c ∈ pat, (Char.toLower z == Char.toLower c) = false) :
    ∀ (u Z : List Char), u.length < pat.length →
      isCIPrefix pat (u ++ z :: Z) = false := by
  intro u
  induction u generalizing pat with
  | nil =>
      intro Z h
      cases pat with
      | nil => simp at h
      | cons p ps =>
          simp only [List.nil_append, isCIPrefix]
          rw [hz p (List.mem_cons_self p ps)]
          simp
  | cons a u' ih =>
      intro Z h
      cases pat with
      | nil => simp at h
      | cons p ps =>
          simp only [List.cons_append, List.append_eq, isCIPrefix]
          rw [ih ps (fun c hc => hz c (List.mem_cons_of_mem p hc)) Z
            (by simpa using h)]
          simp

theorem href_overlap_false : ∀ (u Z : List Char), u ≠ [] → u.length ≤ 4 →
    isCIPrefix "href=".toList (u ++ 'h' :: Z) = false := by
  have e : "href=".toList = 'h' :: 'r' :: 'e' :: 'f' :: '=' :: [] := rfl
  have h1 : (Char.toLower 'h' == Char.toLower 'r') = false := by decide
  have h2 : (Char.toLower 'h' == Char.toLower 'e') = false := by decide
  have h3 : (Char.toLower 'h' == Char.toLower 'f') = false := by decide
  have h4 : (Char.toLower 'h' == Char.toLower '=') = false := by decide
  intro u Z hne hle
  rcases u with _ | ⟨a, _ | ⟨b, _ | ⟨c, _ | ⟨d, _ | ⟨e5, u'⟩⟩⟩⟩⟩
  · exact absurd rfl hne
  · rw [e]; simp only [List.cons_append, List.nil_append, isCIPrefix]
    rw [h1]; simp
  · rw [e]; simp only [List.cons_append, List.nil_append, isCIPrefix]
    rw [h2]; simp
  · rw [e]; simp only [List.cons_append, List.nil_append, isCIPrefix]
    rw [h3]; simp
  · rw [e]; simp only [List.cons_append, List.nil_append, isCIPrefix]
    rw [h4]; simp
  · simp at hle

theorem containsCI_suffix {l pat : List Char} (h : containsCI l pat = false) :
    ∀ s, List.IsSuffix s l → isCIPrefix pat s = false := by
  induction l with
  | nil =>
      intro s hs
      rw [List.suffix_nil.mp hs]
      cases pat with
      | nil => simp [containsCI, List.isEmpty] at h
      | cons p ps => rfl
  | cons c t ih =>
      simp only [containsCI, Bool.or_eq_false_iff] at h
      intro s hs
      rcases List.suffix_cons_iff.mp hs with h1 | h1
      · rw [h1]; exact h.1
      · exact ih h.2 s h1

theorem takeWhile_append_sep {p : Char → Bool} :
    ∀ (xs : List Char) (y : Char) (rest : List Char),
      (∀ x ∈ xs, p x = true) → p y = false →
      (xs ++ y :: rest).takeWhile p = xs := by
  intro xs y rest hall hy
  induction xs with
  | nil => simp [List.takeWhile_cons, hy]
  | cons a as ih =>
      simp only [List.cons_append, List.takeWhile_cons,
        hall a (List.mem_cons_self a as), if_pos]
      rw [ih (fun x hx => hall x (List.mem_cons_of_mem a hx))]

theorem firstSome_none_all {α β : Type} (g : α → Option β) :
    ∀ l, (∀ a ∈ l, g a = none) → firstSome g l = none := by
  intro l h
  induction l with
  | nil => rfl
  | cons a as ih =>
      simp only [firstSome, h a (List.mem_cons_self a as)]
      exact ih (fun x hx => h x (List.mem_cons_of_mem a hx))

theorem firstSome_mem {α β : Type} (g : α → Option β) (b : β) :
    ∀ l, (∀ a ∈ l, g a = none ∨ g a = some b) →
      (∃ a ∈ l, g a = some b) → firstSome g l = some b := by
  intro l hall hex
  induction l with
  | nil => rcases hex with ⟨a, ha, _⟩; simp at ha
  | cons a as ih =>
      rcases hall a (List.mem_cons_self a as) with h | h
      · simp only [firstSome, h]
        rcases hex with ⟨x, hx, hxb⟩
        rcases List.mem_cons.mp hx with rfl | hx
        · rw [h] at hxb; exact absurd hxb (by simp)
        · exact ih (fun y hy => hall y (List.mem_cons_of_mem a hy)) ⟨x, hx, hxb⟩
      · simp only [firstSome, h]

theorem firstSome_map {α γ β : Type} (g : γ → Option β) (h : α → γ) :
    ∀ l, firstSome g (l.map h) = firstSome (fun a => g (h a)) l := by
  intro l
  induction l with
  | nil => rfl
  | cons a as ih =>
      simp only [List.map_cons, firstSome]
      cases g (h a) with
      | none => exact ih
      | some b => rfl

theorem firstSome_append_hit {α β : Type} (g : α → Option β) (b : β) :
    ∀ (l1 : List α) (a : α) (l2 : List α), (∀ x ∈ l1, g x = none) →
      g a = some b → firstSome g (l1 ++ a :: l2) = some b := by
  intro l1 a l2 h1 ha
  induction l1 with
  | nil => simp [firstSome, ha]
  | cons x xs ih =>
      simp only [List.cons_append, firstSome, h1 x (List.mem_cons_self x xs)]
      exact ih (fun y hy => h1 y (List.mem_cons_of_mem x hy))

theorem firstSome_range_hit {β : Type} (g : Nat → Option β) (b : β) :
    ∀ (n i0 : Nat), i0 < n → (∀ i, i < i0 → g i = none) → g i0 = some b →
      firstSome g (List.range n) = some b := by
  intro n i0 hlt hnone hi0
  obtain ⟨r, rfl⟩ : ∃ r, n = i0 + 1 + r := ⟨n - (i0 + 1), by omega⟩
  rw [List.range_add, List.range_succ]
  rw [List.append_assoc, List.singleton_append]
  exact firstSome_append_hit g b (List.range i0) i0 _
    (fun x hx => hnone x (List.mem_range.mp hx)) hi0

theorem quote_not_in_href {qc : Char} (hq : isQuote qc = true) :
    ∀ c ∈ "href=".toList, (Char.toLower qc == Char.toLower c) = false := by
  rcases isQuote_cases hq with rfl | rfl <;> decide

theorem gt_not_in_href :
    ∀ c ∈ "href=".toList, (Char.toLower '>' == Char.toLower c) = false := by
  decide

theorem tracker_tagSafe : ∀ d ∈ trackerDomains, tagSafe d.toList = true := by
  decide

theorem tracker_quote_block :
    ∀ d ∈ trackerDomains, ∀ qc : Char, isQuote qc = true →
      ∀ c ∈ d.toList, (Char.toLower qc == Char.toLower c) = false := by
  intro d hd qc hq
  rcases isQuote_cases hq with rfl | rfl <;> revert d <;> decide

theorem anchorOpenTry_none_of_not_href (dom pre s : List Char)
    (h : isCIPrefix "href=".toList s = false) :
    anchorOpenTry dom (pre, s) = none := by
  simp only [anchorOpenTry, h]
  simp

theorem anchorOpenTry_none_head (dom pre : List Char) (c : Char)
    (rest : List Char) (h : (Char.toLower c == 'h') = false) :
    anchorOpenTry dom (pre, c :: rest) = none := by
  apply anchorOpenTry_none_of_not_href
  have e : "href=".toList = 'h' :: "ref=".toList := rfl
  rw [e]
  simp only [isCIPrefix]
  rw [show Char.toLower 'h' = 'h' from by decide, h]
  simp

theorem anchorOpenTry_none_block (dom pre s : List Char) (z : Char)
    (Z : List Char)
    (hz : ∀ c ∈ "href=".toList, (Char.toLower z == Char.toLower c) = false)
    (hlen : s.length ≤ 4) :
    anchorOpenTry dom (pre, s ++ z :: Z) = none :=
  anchorOpenTry_none_of_not_href _ _ _ (isCIPrefix_block _ z hz s Z
    (by rw [show ("href=".toList).length = 5 from rfl]; omega))

theorem anchorOpenTry_none_h (dom pre s : List Char) (Z : List Char)
    (hne : s ≠ []) (hlen : s.length ≤ 4) :
    anchorOpenTry dom (pre, s ++ 'h' :: Z) = none :=
  anchorOpenTry_none_of_not_href _ _ _ (href_overlap_false s Z hne hlen)

theorem anchorOpenTry_none_noquote (dom pre s rest : List Char)
    (hlen : 5 ≤ s.length)
    (hhead : ∀ x xs, s.drop 5 ++ rest = x :: xs → isQuote x = false) :
    anchorOpenTry dom (pre, s ++ rest) = none := by
  by_cases hc : isCIPrefix "href=".toList (s ++ rest) = true
  · simp only [anchorOpenTry, hc]
    have e : (s ++ rest).drop 5 = s.drop 5 ++ rest :=
      List.drop_append_of_le_length hlen
    rw [e]
    cases hd : s.drop 5 ++ rest with
    | nil => simp
    | cons x xs =>
        simp [hhead x xs hd]
  · simp only [Bool.not_eq_true] at hc
    exact anchorOpenTry_none_of_not_href dom pre _ hc

theorem anchorOpenTry_none_long_nohref (dom pre s rest : List Char)
    (hlen : 5 ≤ s.length) (h : isCIPrefix "href=".toList s = false) :
    anchorOpenTry dom (pre, s ++ rest) = none := by
  apply anchorOpenTry_none_of_not_href
  rw [isCIPrefix_append_of_le _ s rest
    (by rw [show ("href=".toList).length = 5 from rfl]; omega)]
  exact h

theorem anchorInnerTry_none (dom pre s : List Char)
    (h : isCIPrefix dom s = false) :
    anchorInnerTry dom (pre, s) = none := by
  simp only [anchorInnerTry, h]
  simp

theorem anchorInnerTry_hit (dom u attrs2 tl : List Char) (q : Char)
    (pre : List Char) (hq : isQuote q = true)
    (hdlen : dom.length ≤ u.length)
    (hci : isCIPrefix dom (u ++ q :: (attrs2 ++ '>' :: tl)) = true)
    (huq : ∀ c ∈ u, isQuote c = false)
    (h2 : ∀ c ∈ attrs2, (c == '>') = false) :
    anchorInnerTry dom (pre, u ++ q :: (attrs2 ++ '>' :: tl)) = some tl := by
  have e5 : (u ++ q :: (attrs2 ++ '>' :: tl)).drop dom.length
      = u.drop dom.length ++ q :: (attrs2 ++ '>' :: tl) :=
    List.drop_append_of_le_length hdlen
  have etw : (u.drop dom.length ++ q :: (attrs2 ++ '>' :: tl)).takeWhile
      (fun c => !(isQuote c)) = u.drop dom.length :=
    takeWhile_append_sep _ _ _
      (fun x hx => by rw [huq x (List.drop_subset _ _ hx)]; rfl)
      (by rw [hq]; rfl)
  have e6 : (u.drop dom.length ++ q :: (attrs2 ++ '>' :: tl)).drop
      (u.drop dom.length).length = q :: (attrs2 ++ '>' :: tl) :=
    List.drop_left _ _
  have etw2 : (attrs2 ++ '>' :: tl).takeWhile (fun c => !(c == '>'))
      = attrs2 :=
    takeWhile_append_sep _ _ _ (fun x hx => by rw [h2 x hx]; rfl) (by simp)
  have e8 : (attrs2 ++ '>' :: tl).drop attrs2.length = '>' :: tl :=
    List.drop_left _ _
  simp only [anchorInnerTry, hci, e5, etw, e6, hq, etw2, e8]
  simp

theorem splitsDesc_sep (f : Char → Bool) (m : List Char) (y : Char)
    (tl : List Char) (hm : ∀ x ∈ m, f x = true) (hy : f y = false) :
    splitsDesc f (m ++ y :: tl) =
      (List.range (m.length + 1)).map (fun i =>
        (m.take (m.length - i), m.drop (m.length - i) ++ y :: tl)) := by
  have htw : (m ++ y :: tl).takeWhile f = m := takeWhile_append_sep m y tl hm hy
  simp only [splitsDesc, htw, List.drop_left]

/-- Classify the suffixes of the tag run after its leading attribute
block: each one starts inside `href=`, at the opening quote, inside the
URL, at the closing quote, or inside the trailing attribute block. -/
theorem hrefRun_drop (U attrs2 : List Char) (q : Char) :
    ∀ j, 1 ≤ j → j ≤ U.length + attrs2.length + 7 →
      (∃ p, 1 ≤ p ∧ p ≤ 4 ∧
        ("href=".toList ++ q :: (U ++ q :: attrs2)).drop j
          = ("href=".toList).drop p ++ q :: (U ++ q :: attrs2)) ∨
      ("href=".toList ++ q :: (U ++ q :: attrs2)).drop j
          = q :: (U ++ q :: attrs2) ∨
      (∃ t, t < U.length ∧
        ("href=".toList ++ q :: (U ++ q :: attrs2)).drop j
          = U.drop t ++ q :: attrs2) ∨
      ("href=".toList ++ q :: (U ++ q :: attrs2)).drop j = q :: attrs2 ∨
      (∃ t, t ≤ attrs2.length ∧
        ("href=".toList ++ q :: (U ++ q :: attrs2)).drop j = attrs2.drop t) := by
  intro j hj1 hj2
  have hH : ("href=".toList).length = 5 := rfl
  by_cases hle4 : j ≤ 4
  · exact Or.inl ⟨j, hj1, hle4, List.drop_append_of_le_length (by omega)⟩
  · have hdropH : ("href=".toList).drop j = [] :=
      List.drop_eq_nil_of_le (by omega)
    have hbase : ("href=".toList ++ q :: (U ++ q :: attrs2)).drop j
        = (q :: (U ++ q :: attrs2)).drop (j - 5) := by
      rw [List.drop_append_eq_append_drop, hdropH, hH, List.nil_append]
    by_cases h5 : j = 5
    · subst h5
      rw [hbase]
      exact Or.inr (Or.inl rfl)
    · have hstep : (q :: (U ++ q :: attrs2)).drop (j - 5)
          = (U ++ q :: attrs2).drop (j - 6) := by
        rw [show j - 5 = (j - 6) + 1 from by omega, List.drop_succ_cons]
      by_cases ht1 : j - 6 < U.length
      · refine Or.inr (Or.inr (Or.inl ⟨j - 6, ht1, ?_⟩))
        rw [hbase, hstep, List.drop_append_eq_append_drop,
          show j - 6 - U.length = 0 from by omega, List.drop_zero]
      · by_cases ht2 : j - 6 = U.length
        · refine Or.inr (Or.inr (Or.inr (Or.inl ?_)))
          rw [hbase, hstep, List.drop_append_eq_append_drop,
            List.drop_eq_nil_of_le (by omega), ht2, List.nil_append,
            Nat.sub_self, List.drop_zero]
        · refine Or.inr (Or.inr (Or.inr (Or.inr ⟨j - 6 - U.length - 1,
            by omega, ?_⟩)))
          rw [hbase, hstep, List.drop_append_eq_append_drop,
            List.drop_eq_nil_of_le (by omega), List.nil_append,
            show j - 6 - U.length = (j - 6 - U.length - 1) + 1 from by omega,
            List.drop_succ_cons]
          simp

theorem innerSearch_hit (dom url1 url2 attrs2 tl : List Char) (q : Char)
    (hq : isQuote q = true)
    (hqd : ∀ c ∈ dom, (Char.toLower q == Char.toLower c) = false)
    (hU : ∀ c ∈ url1 ++ dom ++ url2, isQuote c = false)
    (h2 : ∀ c ∈ attrs2, (c == '>') = false) :
    firstSome (anchorInnerTry dom)
      (splitsDesc (fun c => !(isQuote c))
        ((url1 ++ dom ++ url2) ++ q :: (attrs2 ++ '>' :: tl))) = some tl := by
  rw [splitsDesc_sep _ (url1 ++ dom ++ url2) q _
    (fun x hx => by rw [hU x hx]; rfl) (by rw [hq]; rfl), firstSome_map]
  have hcand : ∀ k, anchorInnerTry dom
      ((url1 ++ dom ++ url2).take k,
        (url1 ++ dom ++ url2).drop k ++ q :: (attrs2 ++ '>' :: tl)) = none ∨
      anchorInnerTry dom
      ((url1 ++ dom ++ url2).take k,
        (url1 ++ dom ++ url2).drop k ++ q :: (attrs2 ++ '>' :: tl)) =
        some tl := by
    intro k
    by_cases hci : isCIPrefix dom
        ((url1 ++ dom ++ url2).drop k ++ q :: (attrs2 ++ '>' :: tl)) = true
    · right
      have hdlen : dom.length ≤ ((url1 ++ dom ++ url2).drop k).length := by
        by_contra hlt
        rw [isCIPrefix_block dom q hqd _ _ (by omega)] at hci
        exact absurd hci (by simp)
      exact anchorInnerTry_hit dom _ attrs2 tl q _ hq hdlen hci
        (fun c hc => hU c (List.drop_subset _ _ hc)) h2
    · left
      exact anchorInnerTry_none dom _ _ (by simpa using hci)
  apply firstSome_mem
  · intro i _
    exact hcand _
  · have hlen1 : url1.length ≤ (url1 ++ dom ++ url2).length := by
      simp [List.length_append]
    refine ⟨(url1 ++ dom ++ url2).length - url1.length,
      List.mem_range.mpr (by omega), ?_⟩
    rw [show (url1 ++ dom ++ url2).length -
      ((url1 ++ dom ++ url2).length - url1.length) = url1.length from by
        omega]
    have hdropU : (url1 ++ dom ++ url2).drop url1.length = dom ++ url2 := by
      rw [List.append_assoc]
      exact List.drop_left _ _
    rw [hdropU]
    apply anchorInnerTry_hit dom (dom ++ url2) attrs2 tl q _ hq (by simp)
    · rw [List.append_assoc]
      exact isCIPrefix_self_append _ _
    · intro c hc
      apply hU
      rw [List.append_assoc]
      exact List.mem_append_right url1 hc
    · exact h2

theorem innerSearch_none (dom U attrs2 tl : List Char) (q : Char)
    (hq : isQuote q = true)
    (hqd : ∀ c ∈ dom, (Char.toLower q == Char.toLower c) = false)
    (hU : ∀ c ∈ U, isQuote c = false)
    (hmiss : containsCI U dom = false) :
    firstSome (anchorInnerTry dom)
      (splitsDesc (fun c => !(isQuote c)) (U ++ q :: (attrs2 ++ '>' :: tl)))
      = none := by
  rw [splitsDesc_sep _ U q _ (fun x hx => by rw [hU x hx]; rfl)
    (by rw [hq]; rfl), firstSome_map]
  apply firstSome_none_all
  intro i _
  apply anchorInnerTry_none
  by_cases hdl : dom.length ≤ (U.drop (U.length - i)).length
  · rw [isCIPrefix_append_of_le dom _ _ hdl]
    exact containsCI_suffix hmiss _ (List.drop_suffix _ _)
  · exact isCIPrefix_block dom q hqd _ _ (by omega)

theorem anchorOpenTry_hit (dom url1 url2 attrs2 tl : List Char) (q : Char)
    (pre : List Char) (hq : isQuote q = true)
    (hqd : ∀ c ∈ dom, (Char.toLower q == Char.toLower c) = false)
    (hU : ∀ c ∈ url1 ++ dom ++ url2, isQuote c = false)
    (h2 : ∀ c ∈ attrs2, (c == '>') = false) :
    anchorOpenTry dom (pre, "href=".toList ++ q ::
      ((url1 ++ dom ++ url2) ++ q :: (attrs2 ++ '>' :: tl))) = some tl := by
  have hciH : isCIPrefix "href=".toList ("href=".toList ++ q ::
      ((url1 ++ dom ++ url2) ++ q :: (attrs2 ++ '>' :: tl))) = true :=
    isCIPrefix_self_append _ _
  have hdrop : ("href=".toList ++ q ::
      ((url1 ++ dom ++ url2) ++ q :: (attrs2 ++ '>' :: tl))).drop 5
      = q :: ((url1 ++ dom ++ url2) ++ q :: (attrs2 ++ '>' :: tl)) := by
    rw [show (5 : Nat) = ("href=".toList).length from rfl]
    exact List.drop_left _ _
  simp only [anchorOpenTry, hciH, hdrop, hq]
  simpa using innerSearch_hit dom url1 url2 attrs2 tl q hq hqd hU h2

theorem anchorOpenTry_missD (dom U attrs2 tl : List Char) (q : Char)
    (pre : List Char) (hq : isQuote q = true)
    (hqd : ∀ c ∈ dom, (Char.toLower q == Char.toLower c) = false)
    (hUq : ∀ c ∈ U, isQuote c = false)
    (hmiss : containsCI U dom = false) :
    anchorOpenTry dom (pre, "href=".toList ++ q ::
      (U ++ q :: (attrs2 ++ '>' :: tl))) = none := by
  have hciH : isCIPrefix "href=".toList ("href=".toList ++ q ::
      (U ++ q :: (attrs2 ++ '>' :: tl))) = true :=
    isCIPrefix_self_append _ _
  have hdrop : ("href=".toList ++ q ::
      (U ++ q :: (attrs2 ++ '>' :: tl))).drop 5
      = q :: (U ++ q :: (attrs2 ++ '>' :: tl)) := by
    rw [show (5 : Nat) = ("href=".toList).length from rfl]
    exact List.drop_left _ _
  simp only [anchorOpenTry, hciH, hdrop, hq]
  simpa using innerSearch_none dom U attrs2 tl q hq hqd hUq hmiss

theorem anchorOpenTry_upper_none (dom attrs1 U attrs2 tl : List Char)
    (q : Char) (pre : List Char) (hq : isQuote q = true)
    (hU : tagSafe U = true) (h2 : tagSafe attrs2 = true)
    (hnested : containsCI U "href=".toList = false) :
    ∀ k, attrs1.length < k →
      k ≤ attrs1.length + (U.length + attrs2.length + 7) →
      anchorOpenTry dom (pre,
        (attrs1 ++ ("href=".toList ++ q :: (U ++ q :: attrs2))).drop k
          ++ '>' :: tl) = none := by
  intro k hk1 hk2
  have hdropA :
      (attrs1 ++ ("href=".toList ++ q :: (U ++ q :: attrs2))).drop k
      = ("href=".toList ++ q :: (U ++ q :: attrs2)).drop
          (k - attrs1.length) := by
    rw [List.drop_append_eq_append_drop, List.drop_eq_nil_of_le (by omega),
      List.nil_append]
  rw [hdropA]
  rcases hrefRun_drop U attrs2 q (k - attrs1.length) (by omega) (by omega)
    with ⟨p, hp1, hp4, he⟩ | he | ⟨t, ht, he⟩ | he | ⟨t, ht, he⟩
  · rw [he]
    interval_cases p
    · rw [show ("href=".toList).drop 1 = 'r' :: "ef=".toList from rfl]
      simp only [List.cons_append]
      exact anchorOpenTry_none_head _ _ _ _ (by decide)
    · rw [show ("href=".toList).drop 2 = 'e' :: "f=".toList from rfl]
      simp only [List.cons_append]
      exact anchorOpenTry_none_head _ _ _ _ (by decide)
    · rw [show ("href=".toList).drop 3 = 'f' :: "=".toList from rfl]
      simp only [List.cons_append]
      exact anchorOpenTry_none_head _ _ _ _ (by decide)
    · rw [show ("href=".toList).drop 4 = '=' :: [] from rfl]
      simp only [List.cons_append, List.nil_append]
      exact anchorOpenTry_none_head _ _ _ _ (by decide)
  · rw [he]
    simp only [List.cons_append]
    refine anchorOpenTry_none_head _ _ _ _ ?_
    rcases isQuote_cases hq with rfl | rfl <;> decide
  · rw [he]
    simp only [List.append_assoc, List.cons_append]
    by_cases hul : (U.drop t).length ≤ 4
    · exact anchorOpenTry_none_block dom pre _ q _ (quote_not_in_href hq) hul
    · apply anchorOpenTry_none_long_nohref dom pre _ _ (by omega)
      exact containsCI_suffix hnested _ (List.drop_suffix _ _)
  · rw [he]
    simp only [List.cons_append]
    refine anchorOpenTry_none_head _ _ _ _ ?_
    rcases isQuote_cases hq with rfl | rfl <;> decide
  · rw [he]
    by_cases hsl : (attrs2.drop t).length ≤ 4
    · exact anchorOpenTry_none_block dom pre _ '>' tl gt_not_in_href hsl
    · apply anchorOpenTry_none_noquote dom pre _ _ (by omega)
      intro x xs hx
      cases hd : (attrs2.drop t).drop 5 with
      | nil =>
          rw [hd, List.nil_append] at hx
          have hx1 : '>' = x := (List.cons.injEq _ _ _ _).mp hx |>.1
          rw [← hx1]
          decide
      | cons c cs =>
          rw [hd, List.cons_append] at hx
          have hx1 : c = x := (List.cons.injEq _ _ _ _).mp hx |>.1
          rw [← hx1]
          have hc : c ∈ attrs2 := List.drop_subset _ _
            (List.drop_subset _ _ (by rw [hd]; exact List.mem_cons_self c cs))
          exact (tagSafe_mem h2 hc).2.1

theorem anchorOpenTry_lower_none (dom attrs1 W tl : List Char)
    (pre : List Char) (h1 : tagSafe attrs1 = true) :
    ∀ k, k < attrs1.length →
      anchorOpenTry dom (pre,
        (attrs1 ++ ("href=".toList ++ W)).drop k ++ '>' :: tl) = none := by
  intro k hk
  have hdropA : (attrs1 ++ ("href=".toList ++ W)).drop k
      = attrs1.drop k ++ ("href=".toList ++ W) :=
    List.drop_append_of_le_length (by omega)
  rw [hdropA]
  have hlen : (attrs1.drop k).length = attrs1.length - k := by
    simp [List.length_drop]
  by_cases hsl : (attrs1.drop k).length ≤ 4
  · rw [show "href=".toList = 'h' :: "ref=".toList from rfl]
    simp only [List.append_assoc, List.cons_append]
    refine anchorOpenTry_none_h dom pre _ _ ?_ hsl
    intro hnil
    rw [hnil] at hlen
    simp at hlen
    omega
  · simp only [List.append_assoc]
    apply anchorOpenTry_none_noquote dom pre _ _ (by omega)
    intro x xs hx
    cases hd : (attrs1.drop k).drop 5 with
    | nil =>
        rw [hd, List.nil_append] at hx
        rw [show "href=".toList = 'h' :: "ref=".toList from rfl,
          List.cons_append] at hx
        have hx1 : 'h' = x := (List.cons.injEq _ _ _ _).mp hx |>.1
        rw [← hx1]
        decide
    | cons c cs =>
        rw [hd, List.cons_append] at hx
        have hx1 : c = x := (List.cons.injEq _ _ _ _).mp hx |>.1
        rw [← hx1]
        have hc : c ∈ attrs1 := List.drop_subset _ _
          (List.drop_subset _ _ (by rw [hd]; exact List.mem_cons_self c cs))
        exact (tagSafe_mem h1 hc).2.1

theorem matchAnchorOpen_found (dom attrs1 url1 url2 attrs2 tl : List Char)
    (q : Char) (hq : isQuote q = true)
    (hqd : ∀ c ∈ dom, (Char.toLower q == Char.toLower c) = false)
    (h1 : tagSafe attrs1 = true)
    (hU : tagSafe (url1 ++ dom ++ url2) = true)
    (h2 : tagSafe attrs2 = true)
    (hnested : containsCI (url1 ++ dom ++ url2) "href=".toList = false) :
    matchAnchorOpen dom
      ((attrs1 ++ ("href=".toList ++ q ::
        ((url1 ++ dom ++ url2) ++ q :: attrs2))) ++ '>' :: tl) = some tl := by
  have hH : ∀ c ∈ "href=".toList, (c == '>') = false := by decide
  have hmX : ∀ x ∈ attrs1 ++ ("href=".toList ++ q ::
      ((url1 ++ dom ++ url2) ++ q :: attrs2)),
      ((fun c => !(c == '>')) x) = true := by
    intro x hx
    show (!(x == '>')) = true
    rcases List.mem_append.mp hx with h | h
    · rw [(tagSafe_mem h1 h).1]; rfl
    rcases List.mem_append.mp h with h | h
    · rw [hH x h]; rfl
    rcases List.mem_cons.mp h with rfl | h
    · rcases isQuote_cases hq with rfl | rfl <;> decide
    rcases List.mem_append.mp h with h | h
    · rw [(tagSafe_mem hU h).1]; rfl
    rcases List.mem_cons.mp h with rfl | h
    · rcases isQuote_cases hq with rfl | rfl <;> decide
    · rw [(tagSafe_mem h2 h).1]; rfl
  rw [matchAnchorOpen, splitsDesc_sep _ _ '>' tl hmX (by simp),
    firstSome_map]
  have hXlen : (attrs1 ++ ("href=".toList ++ q ::
      ((url1 ++ dom ++ url2) ++ q :: attrs2))).length
      = attrs1.length + (((url1 ++ dom ++ url2)).length
          + attrs2.length + 7) := by
    simp [List.length_append]
    omega
  apply firstSome_range_hit _ tl _
    ((attrs1 ++ ("href=".toList ++ q ::
      ((url1 ++ dom ++ url2) ++ q :: attrs2))).length - attrs1.length)
    (by omega)
  · intro i hi
    apply anchorOpenTry_upper_none dom attrs1 (url1 ++ dom ++ url2) attrs2
      tl q _ hq hU h2 hnested
    · omega
    · omega
  · rw [show (attrs1 ++ ("href=".toList ++ q ::
      ((url1 ++ dom ++ url2) ++ q :: attrs2))).length -
        ((attrs1 ++ ("href=".toList ++ q ::
          ((url1 ++ dom ++ url2) ++ q :: attrs2))).length - attrs1.length)
        = attrs1.length from by omega]
    rw [List.drop_left]
    rw [show ("href=".toList ++ q ::
        ((url1 ++ dom ++ url2) ++ q :: attrs2)) ++ '>' :: tl
      = "href=".toList ++ q ::
        ((url1 ++ dom ++ url2) ++ q :: (attrs2 ++ '>' :: tl)) from by simp]
    exact anchorOpenTry_hit dom url1 url2 attrs2 tl q _ hq hqd
      (fun c hc => (tagSafe_mem hU hc).2.1)
      (fun c hc => (tagSafe_mem h2 hc).1)

theorem matchAnchorOpen_miss (dom attrs1 U attrs2 tl : List Char)
    (q : Char) (hq : isQuote q = true)
    (hqd : ∀ c ∈ dom, (Char.toLower q == Char.toLower c) = false)
    (h1 : tagSafe attrs1 = true)
    (hU : tagSafe U = true)
    (h2 : tagSafe attrs2 = true)
    (hnested : containsCI U "href=".toList = false)
    (hmiss : containsCI U dom = false) :
    matchAnchorOpen dom
      ((attrs1 ++ ("href=".toList ++ q :: (U ++ q :: attrs2)))
        ++ '>' :: tl) = none := by
  have hH : ∀ c ∈ "href=".toList, (c == '>') = false := by decide
  have hmX : ∀ x ∈ attrs1 ++ ("href=".toList ++ q :: (U ++ q :: attrs2)),
      ((fun c => !(c == '>')) x) = true := by
    intro x hx
    show (!(x == '>')) = true
    rcases List.mem_append.mp hx with h | h
    · rw [(tagSafe_mem h1 h).1]; rfl
    rcases List.mem_append.mp h with h | h
    · rw [hH x h]; rfl
    rcases List.mem_cons.mp h with rfl | h
    · rcases isQuote_cases hq with rfl | rfl <;> decide
    rcases List.mem_append.mp h with h | h
    · rw [(tagSafe_mem hU h).1]; rfl
    rcases List.mem_cons.mp h with rfl | h
    · rcases isQuote_cases hq with rfl | rfl <;> decide
    · rw [(tagSafe_mem h2 h).1]; rfl
  rw [matchAnchorOpen, splitsDesc_sep _ _ '>' tl hmX (by simp),
    firstSome_map]
  have hXlen : (attrs1 ++ ("href=".toList ++ q ::
      (U ++ q :: attrs2))).length
      = attrs1.length + (U.length + attrs2.length + 7) := by
    simp [List.length_append]
    omega
  apply firstSome_none_all
  intro i hi
  rcases lt_trichotomy ((attrs1 ++ ("href=".toList ++ q ::
      (U ++ q :: attrs2))).length - i) attrs1.length with hk | hk | hk
  · exact anchorOpenTry_lower_none dom attrs1 (q :: (U ++ q :: attrs2))
      tl _ h1 _ hk
  · rw [hk, List.drop_left]
    simp only [List.append_assoc, List.cons_append]
    exact anchorOpenTry_missD dom U attrs2 tl q _ hq hqd
      (fun c hc => (tagSafe_mem hU hc).2.1) hmiss
  · exact anchorOpenTry_upper_none dom attrs1 U attrs2 tl q _ hq hU h2
      hnested _ hk (by omega)

theorem findCloseA_clean :
    ∀ (body : List Char), ltFree body = true → ∀ (tl2 : List Char),
      findCloseA (body ++ '<' :: '/' :: 'a' :: '>' :: tl2)
        = some (body, tl2) := by
  intro body
  induction body with
  | nil =>
      intro _ tl2
      rfl
  | cons c b2 ih =>
      intro h tl2
      have hparts : (Char.toLower c == '<') = false ∧ ltFree b2 = true := by
        simp only [ltFree, List.all_cons, Bool.and_eq_true,
          Bool.not_eq_true'] at h
        exact ⟨h.1, by simp only [ltFree]; exact h.2⟩
      have hci : isCIPrefix "</a>".toList
          (c :: (b2 ++ '<' :: '/' :: 'a' :: '>' :: tl2)) = false := by
        rw [show "</a>".toList = '<' :: "/a>".toList from rfl]
        simp only [isCIPrefix]
        rw [show Char.toLower '<' = '<' from by decide, hparts.1]
        simp
      rw [List.cons_append, findCloseA, hci]
      rw [ih hparts.2 tl2]
      simp

theorem matchAnchorAt_none_head (dom : List Char) (c : Char)
    (rest : List Char) (h : (Char.toLower c == '<') = false) :
    matchAnchorAt dom (c :: rest) = none := by
  have hci : isCIPrefix "<a".toList (c :: rest) = false := by
    rw [show "<a".toList = '<' :: "a".toList from rfl]
    simp only [isCIPrefix]
    rw [show Char.toLower '<' = '<' from by decide, h]
    simp
  rw [matchAnchorAt, hci]
  simp

theorem matchAnchorAt_none_second (dom : List Char) (c2 : Char)
    (rest : List Char) (h : (Char.toLower c2 == 'a') = false) :
    matchAnchorAt dom ('<' :: c2 :: rest) = none := by
  have hci : isCIPrefix "<a".toList ('<' :: c2 :: rest) = false := by
    rw [show "<a".toList = '<' :: 'a' :: [] from rfl]
    simp only [isCIPrefix]
    rw [show Char.toLower 'a' = 'a' from by decide, h]
    simp
  rw [matchAnchorAt, hci]
  simp

theorem matchAnchorAt_eq_found (dom R afterGt : List Char)
    (h1 : isCIPrefix "<a".toList ('<' :: 'a' :: R) = true)
    (h2 : wordBoundary R.head? = true)
    (h3 : matchAnchorOpen dom R = some afterGt) :
    matchAnchorAt dom ('<' :: 'a' :: R) = findCloseA afterGt := by
  rw [matchAnchorAt]
  rw [show (('<' : Char) :: 'a' :: R).drop 2 = R from rfl, h1, h2, h3]
  simp

theorem matchAnchorAt_eq_missO (dom R : List Char)
    (h3 : matchAnchorOpen dom R = none) :
    matchAnchorAt dom ('<' :: 'a' :: R) = none := by
  rw [matchAnchorAt]
  rw [show (('<' : Char) :: 'a' :: R).drop 2 = R from rfl, h3]
  cases hcond : isCIPrefix "<a".toList ('<' :: 'a' :: R) &&
    wordBoundary R.head? <;> simp

theorem matchAnchorAt_found (dom : List Char) (a1h : Char)
    (a1t url1 url2 attrs2 body tl2 : List Char) (q : Char)
    (hw : isJsWordChar a1h = false) (hq : isQuote q = true)
    (hqd : ∀ c ∈ dom, (Char.toLower q == Char.toLower c) = false)
    (h1 : tagSafe (a1h :: a1t) = true)
    (hU : tagSafe (url1 ++ dom ++ url2) = true)
    (h2 : tagSafe attrs2 = true)
    (hnested : containsCI (url1 ++ dom ++ url2) "href=".toList = false)
    (hbody : ltFree body = true) :
    matchAnchorAt dom ('<' :: 'a' ::
      (((a1h :: a1t) ++ ("href=".toList ++ q ::
        ((url1 ++ dom ++ url2) ++ q :: attrs2))) ++ '>' ::
          (body ++ '<' :: '/' :: 'a' :: '>' :: tl2))) = some (body, tl2) := by
  have hopen := matchAnchorOpen_found dom (a1h :: a1t) url1 url2 attrs2
    (body ++ '<' :: '/' :: 'a' :: '>' :: tl2) q hq hqd h1 hU h2 hnested
  have hci : isCIPrefix "<a".toList ('<' :: 'a' ::
      (((a1h :: a1t) ++ ("href=".toList ++ q ::
        ((url1 ++ dom ++ url2) ++ q :: attrs2))) ++ '>' ::
          (body ++ '<' :: '/' :: 'a' :: '>' :: tl2))) = true := by
    simp [isCIPrefix]
  have hwb : wordBoundary ((((a1h :: a1t) ++ ("href=".toList ++ q ::
      ((url1 ++ dom ++ url2) ++ q :: attrs2))) ++ '>' ::
        (body ++ '<' :: '/' :: 'a' :: '>' :: tl2)).head?) = true := by
    rw [show ((a1h :: a1t) ++ ("href=".toList ++ q ::
      ((url1 ++ dom ++ url2) ++ q :: attrs2))) ++ '>' ::
        (body ++ '<' :: '/' :: 'a' :: '>' :: tl2)
      = a1h :: ((a1t ++ ("href=".toList ++ q ::
          ((url1 ++ dom ++ url2) ++ q :: attrs2))) ++ '>' ::
            (body ++ '<' :: '/' :: 'a' :: '>' :: tl2)) from by simp]
    simp [wordBoundary, hw]
  exact (matchAnchorAt_eq_found dom _ _ hci hwb hopen).trans
    (findCloseA_clean body hbody tl2)

theorem matchAnchorAt_missD (dom : List Char) (a1h : Char)
    (a1t U attrs2 T : List Char) (q : Char)
    (hq : isQuote q = true)
    (hqd : ∀ c ∈ dom, (Char.toLower q == Char.toLower c) = false)
    (h1 : tagSafe (a1h :: a1t) = true)
    (hU : tagSafe U = true)
    (h2 : tagSafe attrs2 = true)
    (hnested : containsCI U "href=".toList = false)
    (hmiss : containsCI U dom = false) :
    matchAnchorAt dom ('<' :: 'a' ::
      (((a1h :: a1t) ++ ("href=".toList ++ q :: (U ++ q :: attrs2)))
        ++ '>' :: T)) = none := by
  have hopen := matchAnchorOpen_miss dom (a1h :: a1t) U attrs2 T q hq hqd
    h1 hU h2 hnested hmiss
  exact matchAnchorAt_eq_missO dom _ hopen

theorem replaceAnchors_clean (dom : List Char) :
    ∀ (l : List Char), ltFree l = true → ∀ (fuel : Nat),
      replaceAnchors dom fuel l = l := by
  intro l
  induction l with
  | nil => intro _ fuel; cases fuel <;> rfl
  | cons c rest ih =>
      intro h fuel
      have hparts : (Char.toLower c == '<') = false ∧ ltFree rest = true := by
        simp only [ltFree, List.all_cons, Bool.and_eq_true,
          Bool.not_eq_true'] at h
        exact ⟨h.1, by simp only [ltFree]; exact h.2⟩
      cases fuel with
      | zero => rfl
      | succ f =>
          simp only [replaceAnchors,
            matchAnchorAt_none_head dom c rest hparts.1]
          rw [ih hparts.2 f]

theorem replaceAnchors_append_clean (dom : List Char) :
    ∀ (seg : List Char), ltFree seg = true → ∀ (fuel : Nat)
      (rest : List Char),
      replaceAnchors dom fuel (seg ++ rest)
        = seg ++ replaceAnchors dom (fuel - seg.length) rest := by
  intro seg
  induction seg with
  | nil => intro _ fuel rest; simp
  | cons c seg2 ih =>
      intro h fuel rest
      have hparts : (Char.toLower c == '<') = false ∧ ltFree seg2 = true := by
        simp only [ltFree, List.all_cons, Bool.and_eq_true,
          Bool.not_eq_true'] at h
        exact ⟨h.1, by simp only [ltFree]; exact h.2⟩
      cases fuel with
      | zero =>
          simp only [replaceAnchors, Nat.zero_sub]
          rfl
      | succ f =>
          simp only [List.cons_append, List.append_eq, replaceAnchors,
            matchAnchorAt_none_head dom c (seg2 ++ rest) hparts.1]
          rw [ih hparts.2 f rest]
          simp only [List.length_cons, Nat.succ_sub_succ]

theorem imgTagStart_false_head (c : Char) (rest : List Char)
    (h : (Char.toLower c == '<') = false) :
    imgTagStart (c :: rest) = false := by
  have hci : isCIPrefix "<img".toList (c :: rest) = false := by
    rw [show "<img".toList = '<' :: "img".toList from rfl]
    simp only [isCIPrefix]
    rw [show Char.toLower '<' = '<' from by decide, h]
    simp
  rw [imgTagStart, hci]
  simp

theorem imgTagStart_false_second (c2 : Char) (rest : List Char)
    (h : (Char.toLower c2 == 'i') = false) :
    imgTagStart ('<' :: c2 :: rest) = false := by
  have hci : isCIPrefix "<img".toList ('<' :: c2 :: rest) = false := by
    rw [show "<img".toList = '<' :: 'i' :: "mg".toList from rfl]
    simp only [isCIPrefix]
    rw [show Char.toLower 'i' = 'i' from by decide, h]
    simp
  rw [imgTagStart, hci]
  simp

theorem stripImgs_clean :
    ∀ (l : List Char), ltFree l = true → ∀ (fuel : Nat),
      stripImgs fuel l = l := by
  intro l
  induction l with
  | nil => intro _ fuel; cases fuel <;> rfl
  | cons c rest ih =>
      intro h fuel
      have hparts : (Char.toLower c == '<') = false ∧ ltFree rest = true := by
        simp only [ltFree, List.all_cons, Bool.and_eq_true,
          Bool.not_eq_true'] at h
        exact ⟨h.1, by simp only [ltFree]; exact h.2⟩
      cases fuel with
      | zero => rfl
      | succ f =>
          simp only [stripImgs, imgTagStart_false_head c rest hparts.1]
          rw [ih hparts.2 f]
          simp

theorem stripImgs_append_clean :
    ∀ (seg : List Char), ltFree seg = true → ∀ (fuel : Nat)
      (rest : List Char),
      stripImgs fuel (seg ++ rest) = seg ++ stripImgs (fuel - seg.length) rest := by
  intro seg
  induction seg with
  | nil => intro _ fuel rest; simp
  | cons c seg2 ih =>
      intro h fuel rest
      have hparts : (Char.toLower c == '<') = false ∧ ltFree seg2 = true := by
        simp only [ltFree, List.all_cons, Bool.and_eq_true,
          Bool.not_eq_true'] at h
        exact ⟨h.1, by simp only [ltFree]; exact h.2⟩
      cases fuel with
      | zero =>
          simp only [stripImgs, Nat.zero_sub]
          rfl
      | succ f =>
          simp only [List.cons_append, List.append_eq, stripImgs,
            imgTagStart_false_head c (seg2 ++ rest) hparts.1]
          rw [ih hparts.2 f rest]
          simp only [List.length_cons, Nat.succ_sub_succ]
          simp

/-! ### A family of documents with tracker anchors

`AnchorParts` carries the free parts of one anchor tag
`<a{a1h}{a1t}href={q}{url1∘dom∘url2}{q}{attrs2}>{body}</a>`; a document
is an alternating list of clean segments and such anchors (each tagged
with its tracker domain), followed by a clean tail. -/

structure AnchorParts where
  a1h : Char
  a1t : List Char
  q : Char
  url1 : List Char
  url2 : List Char
  attrs2 : List Char
  body : List Char

/-- The characters of the anchor open tag after `<a`, minus the final
`>`. -/
def anchorOpenBody (dom : List Char) (p : AnchorParts) : List Char :=
  (p.a1h :: p.a1t) ++ ("href=".toList ++ p.q ::
    ((p.url1 ++ dom ++ p.url2) ++ p.q :: p.attrs2))

/-- The full anchor tag text. -/
def anchorChunk (dom : List Char) (p : AnchorParts) : List Char :=
  '<' :: 'a' :: (anchorOpenBody dom p ++ '>' ::
    (p.body ++ '<' :: '/' :: 'a' :: '>' :: []))

theorem anchorChunk_append (dom : List Char) (p : AnchorParts)
    (Z : List Char) :
    anchorChunk dom p ++ Z = '<' :: 'a' :: (anchorOpenBody dom p ++ '>' ::
      (p.body ++ '<' :: '/' :: 'a' :: '>' :: Z)) := by
  simp [anchorChunk]

theorem anchorChunk_length (dom : List Char) (p : AnchorParts) :
    (anchorChunk dom p).length
      = (anchorOpenBody dom p).length + p.body.length + 7 := by
  simp [anchorChunk]
  omega

/-- Well-formedness of the free parts of an anchor: word boundary after
`<a`, tag-safe attribute and URL characters, a real quote, a clean body,
and no case-insensitive `href=` inside the URL. -/
def partsOK (dom : List Char) (p : AnchorParts) : Bool :=
  !(isJsWordChar p.a1h) && tagSafe (p.a1h :: p.a1t) && isQuote p.q &&
    tagSafe (p.url1 ++ dom ++ p.url2) && tagSafe p.attrs2 &&
    ltFree p.body &&
    !(containsCI (p.url1 ++ dom ++ p.url2) "href=".toList)

theorem partsOK_parts {dom : List Char} {p : AnchorParts}
    (h : partsOK dom p = true) :
    isJsWordChar p.a1h = false ∧ tagSafe (p.a1h :: p.a1t) = true ∧
      isQuote p.q = true ∧ tagSafe (p.url1 ++ dom ++ p.url2) = true ∧
      tagSafe p.attrs2 = true ∧ ltFree p.body = true ∧
      containsCI (p.url1 ++ dom ++ p.url2) "href=".toList = false := by
  simp only [partsOK, Bool.and_eq_true, Bool.not_eq_true'] at h
  exact ⟨h.1.1.1.1.1.1, h.1.1.1.1.1.2, h.1.1.1.1.2, h.1.1.1.2, h.1.1.2,
    h.1.2, h.2⟩

/-- The URL of the anchor avoids every domain that comes before its own
in the pass list (those passes must leave the anchor alone). -/
def domClear : List String → String → List Char → Bool
  | [], _, _ => true
  | d :: ds, dom, U =>
      if dom == d then true
      else !(containsCI U d.toList) && domClear ds dom U

theorem domClear_step {d : String} {ds : List String} {dom : String}
    {U : List Char} (h : domClear (d :: ds) dom U = true) (hne : dom ≠ d) :
    containsCI U d.toList = false ∧ domClear ds dom U = true := by
  have hbeq : (dom == d) = false := by simp [hne]
  simp [domClear, hbeq] at h
  exact h

/-- A document chunk (clean segment plus one anchor) is well-formed with
respect to the pass list `ds`. -/
def chunkOKb (ds : List String) (ch : List Char × String × AnchorParts) :
    Bool :=
  ltFree ch.1 && ds.contains ch.2.1 && partsOK ch.2.1.toList ch.2.2 &&
    domClear ds ch.2.1 (ch.2.2.url1 ++ ch.2.1.toList ++ ch.2.2.url2)

theorem chunkOKb_parts {ds : List String}
    {ch : List Char × String × AnchorParts} (h : chunkOKb ds ch = true) :
    ltFree ch.1 = true ∧ ch.2.1 ∈ ds ∧
      partsOK ch.2.1.toList ch.2.2 = true ∧
      domClear ds ch.2.1
        (ch.2.2.url1 ++ ch.2.1.toList ++ ch.2.2.url2) = true := by
  simp only [chunkOKb, Bool.and_eq_true] at h
  exact ⟨h.1.1.1, List.elem_iff.mp h.1.1.2, h.1.2, h.2⟩

theorem chunkOKb_build {ds : List String}
    {ch : List Char × String × AnchorParts}
    (h1 : ltFree ch.1 = true) (h2 : ch.2.1 ∈ ds)
    (h3 : partsOK ch.2.1.toList ch.2.2 = true)
    (h4 : domClear ds ch.2.1
      (ch.2.2.url1 ++ ch.2.1.toList ++ ch.2.2.url2) = true) :
    chunkOKb ds ch = true := by
  simp only [chunkOKb, Bool.and_eq_true]
  exact ⟨⟨⟨h1, List.elem_iff.mpr h2⟩, h3⟩, h4⟩

/-- Build the document text from chunks and tail. -/
def buildDoc : List (List Char × String × AnchorParts) → List Char →
    List Char
  | [], tail => tail
  | (seg, d0, p) :: rest, tail =>
      seg ++ (anchorChunk d0.toList p ++ buildDoc rest tail)

/-- The expected result: every anchor replaced by its inner text. -/
def unwrapDoc : List (List Char × String × AnchorParts) → List Char →
    List Char
  | [], tail => tail
  | (seg, _, p) :: rest, tail => seg ++ (p.body ++ unwrapDoc rest tail)

/-- Prepend text to the leading segment of a chunk list (or to the tail
when there is none). -/
def absorbSeg (pre : List Char) :
    List (List Char × String × AnchorParts) → List Char →
      List (List Char × String × AnchorParts) × List Char
  | [], tail => ([], pre ++ tail)
  | (seg, d0, p) :: rest, tail => ((pre ++ seg, d0, p) :: rest, tail)

/-- Remove the anchors of domain `d`, merging each one's segment and
body into the following segment: the outcome of one replacement pass. -/
def dropDom (d : String) :
    List (List Char × String × AnchorParts) → List Char →
      List (List Char × String × AnchorParts) × List Char
  | [], tail => ([], tail)
  | (seg, d0, p) :: rest, tail =>
      if d0 == d then
        absorbSeg (seg ++ p.body) (dropDom d rest tail).1
          (dropDom d rest tail).2
      else ((seg, d0, p) :: (dropDom d rest tail).1, (dropDom d rest tail).2)

theorem buildDoc_absorbSeg (pre : List Char)
    (l : List (List Char × String × AnchorParts)) (t : List Char) :
    buildDoc (absorbSeg pre l t).1 (absorbSeg pre l t).2
      = pre ++ buildDoc l t := by
  cases l with
  | nil => rfl
  | cons ch rest =>
      rcases ch with ⟨seg, d0, p⟩
      simp [absorbSeg, buildDoc]

theorem unwrapDoc_absorbSeg (pre : List Char)
    (l : List (List Char × String × AnchorParts)) (t : List Char) :
    unwrapDoc (absorbSeg pre l t).1 (absorbSeg pre l t).2
      = pre ++ unwrapDoc l t := by
  cases l with
  | nil => rfl
  | cons ch rest =>
      rcases ch with ⟨seg, d0, p⟩
      simp [absorbSeg, unwrapDoc]

theorem unwrapDoc_dropDom (d : String) :
    ∀ (chunks : List (List Char × String × AnchorParts)) (tail : List Char),
      unwrapDoc (dropDom d chunks tail).1 (dropDom d chunks tail).2
        = unwrapDoc chunks tail := by
  intro chunks
  induction chunks with
  | nil => intro tail; rfl
  | cons ch0 rest ih =>
      intro tail
      rcases ch0 with ⟨seg, d0, p⟩
      cases hd : d0 == d with
      | true =>
          simp only [dropDom, hd, if_true]
          rw [unwrapDoc_absorbSeg, ih tail]
          simp [unwrapDoc]
      | false =>
          simp [dropDom, hd, unwrapDoc, ih tail]

theorem absorbSeg_preserves (ds : List String) (pre : List Char)
    (hpre : ltFree pre = true)
    (l : List (List Char × String × AnchorParts)) (t : List Char)
    (hl : ∀ ch ∈ l, chunkOKb ds ch = true) (ht : ltFree t = true) :
    (∀ ch ∈ (absorbSeg pre l t).1, chunkOKb ds ch = true) ∧
      ltFree (absorbSeg pre l t).2 = true := by
  cases l with
  | nil =>
      refine ⟨?_, ltFree_append hpre ht⟩
      intro ch hch
      simp [absorbSeg] at hch
  | cons ch0 rest =>
      rcases ch0 with ⟨seg, d0, p⟩
      refine ⟨?_, ht⟩
      intro ch hch
      simp only [absorbSeg] at hch
      rcases List.mem_cons.mp hch with rfl | hch
      · have h0 := chunkOKb_parts (hl (seg, d0, p) (List.mem_cons_self _ _))
        exact chunkOKb_build (ltFree_append hpre h0.1) h0.2.1 h0.2.2.1
          h0.2.2.2
      · exact hl ch (List.mem_cons_of_mem _ hch)

theorem dropDom_preserves (d : String) (ds : List String) :
    ∀ (chunks : List (List Char × String × AnchorParts)) (tail : List Char),
      (∀ ch ∈ chunks, chunkOKb (d :: ds) ch = true) → ltFree tail = true →
      (∀ ch ∈ (dropDom d chunks tail).1, chunkOKb ds ch = true) ∧
        ltFree (dropDom d chunks tail).2 = true := by
  intro chunks
  induction chunks with
  | nil =>
      intro tail _ ht
      refine ⟨?_, ht⟩
      intro ch hch
      simp [dropDom] at hch
  | cons ch0 rest ih =>
      intro tail hl ht
      rcases ch0 with ⟨seg, d0, p⟩
      have h0 := chunkOKb_parts (hl (seg, d0, p) (List.mem_cons_self _ _))
      have ihr := ih tail (fun ch hch => hl ch (List.mem_cons_of_mem _ hch))
        ht
      cases hd : d0 == d with
      | true =>
          simp only [dropDom, hd, if_true]
          have hbody : ltFree p.body = true :=
            (partsOK_parts h0.2.2.1).2.2.2.2.2.1
          exact absorbSeg_preserves ds (seg ++ p.body)
            (ltFree_append h0.1 hbody) _ _ ihr.1 ihr.2
      | false =>
          have hstep : dropDom d ((seg, d0, p) :: rest) tail
              = ((seg, d0, p) :: (dropDom d rest tail).1,
                  (dropDom d rest tail).2) := by
            simp [dropDom, hd]
          rw [hstep]
          have hne : d0 ≠ d := by
            intro he
            rw [he] at hd
            simp at hd
          refine ⟨?_, ihr.2⟩
          intro ch hch
          rcases List.mem_cons.mp hch with rfl | hch2
          · have hmem : d0 ∈ ds := by
              rcases List.mem_cons.mp h0.2.1 with he | hm
              · exact absurd he hne
              · exact hm
            have hdc := domClear_step h0.2.2.2 hne
            exact chunkOKb_build h0.1 hmem h0.2.2.1 hdc.2
          · exact ihr.1 ch hch2

/-- What one pass (for domain `d`) needs of each chunk: clean segment,
well-formed parts, a tracker domain, and either the chunk carries
domain `d` or its URL avoids `d`. -/
def chunkPass (d : String) (ch : List Char × String × AnchorParts) : Bool :=
  ltFree ch.1 && trackerDomains.contains ch.2.1 &&
    partsOK ch.2.1.toList ch.2.2 &&
    (ch.2.1 == d || !(containsCI
      (ch.2.2.url1 ++ ch.2.1.toList ++ ch.2.2.url2) d.toList))

theorem chunkPass_parts {d : String} {ch : List Char × String × AnchorParts}
    (h : chunkPass d ch = true) :
    ltFree ch.1 = true ∧ ch.2.1 ∈ trackerDomains ∧
      partsOK ch.2.1.toList ch.2.2 = true ∧
      (ch.2.1 = d ∨ containsCI
        (ch.2.2.url1 ++ ch.2.1.toList ++ ch.2.2.url2) d.toList = false) := by
  simp only [chunkPass, Bool.and_eq_true, Bool.or_eq_true,
    Bool.not_eq_true'] at h
  refine ⟨h.1.1.1, List.elem_iff.mp h.1.1.2, h.1.2, ?_⟩
  rcases h.2 with h2 | h2
  · exact Or.inl (beq_iff_eq.mp h2)
  · exact Or.inr h2

theorem midseg_ltFree (dom : List Char) (p : AnchorParts)
    (hOK : partsOK dom p = true) :
    ltFree ('a' :: (anchorOpenBody dom p ++ '>' :: p.body)) = true := by
  have hp := partsOK_parts hOK
  have hH : ∀ x ∈ "href=".toList, (Char.toLower x == '<') = false := by
    decide
  simp only [ltFree, List.all_eq_true]
  intro c hc
  show (!(Char.toLower c == '<')) = true
  rcases List.mem_cons.mp hc with rfl | hc
  · decide
  rcases List.mem_append.mp hc with hc | hc
  · rw [anchorOpenBody] at hc
    rcases List.mem_append.mp hc with hc | hc
    · rw [(tagSafe_mem hp.2.1 hc).2.2]; rfl
    rcases List.mem_append.mp hc with hc | hc
    · rw [hH c hc]; rfl
    rcases List.mem_cons.mp hc with he | hc
    · rcases isQuote_cases hp.2.2.1 with he2 | he2 <;> rw [he, he2] <;> decide
    rcases List.mem_append.mp hc with hc | hc
    · rw [(tagSafe_mem hp.2.2.2.1 hc).2.2]; rfl
    rcases List.mem_cons.mp hc with he | hc
    · rcases isQuote_cases hp.2.2.1 with he2 | he2 <;> rw [he, he2] <;> decide
    · rw [(tagSafe_mem hp.2.2.2.2.1 hc).2.2]; rfl
  rcases List.mem_cons.mp hc with rfl | hc
  · decide
  · rw [ltFree_mem hp.2.2.2.2.2.1 hc]; rfl

/-- One global anchor-replacement pass over a well-formed document
unwraps exactly the anchors of domain `d` and leaves everything else
unchanged. -/
theorem replaceAnchors_doc (d : String) (hd : d ∈ trackerDomains) :
    ∀ (chunks : List (List Char × String × AnchorParts)) (tail : List Char)
      (fuel : Nat), (buildDoc chunks tail).length < fuel →
      (∀ ch ∈ chunks, chunkPass d ch = true) → ltFree tail = true →
      replaceAnchors d.toList fuel (buildDoc chunks tail)
        = buildDoc (dropDom d chunks tail).1 (dropDom d chunks tail).2 := by
  intro chunks
  induction chunks with
  | nil =>
      intro tail fuel _ _ ht
      exact replaceAnchors_clean d.toList tail ht fuel
  | cons ch0 rest ih =>
      intro tail fuel hfuel hl ht
      rcases ch0 with ⟨seg, d0, p⟩
      have hcp := chunkPass_parts (hl (seg, d0, p) (List.mem_cons_self _ _))
      have hpp := partsOK_parts hcp.2.2.1
      dsimp only at hcp hpp
      have hlrest : ∀ ch ∈ rest, chunkPass d ch = true :=
        fun ch hch => hl ch (List.mem_cons_of_mem _ hch)
      have hlen : (buildDoc ((seg, d0, p) :: rest) tail).length
          = seg.length + ((anchorChunk d0.toList p).length
              + (buildDoc rest tail).length) := by
        simp [buildDoc]
      have hchl := anchorChunk_length d0.toList p
      have hL : ('a' :: (anchorOpenBody d0.toList p ++ '>' :: p.body)).length
          = (anchorOpenBody d0.toList p).length + p.body.length + 2 := by
        simp
        omega
      rw [hlen] at hfuel
      rw [show buildDoc ((seg, d0, p) :: rest) tail
        = seg ++ (anchorChunk d0.toList p ++ buildDoc rest tail) from rfl]
      rw [replaceAnchors_append_clean d.toList seg hcp.1 fuel
        (anchorChunk d0.toList p ++ buildDoc rest tail)]
      obtain ⟨f2, hf2⟩ : ∃ f2, fuel - seg.length = f2 + 1 :=
        ⟨fuel - seg.length - 1, by omega⟩
      rw [hf2, anchorChunk_append d0.toList p (buildDoc rest tail)]
      cases hdd : d0 == d with
      | true =>
          have hde : d0 = d := beq_iff_eq.mp hdd
          subst hde
          have hmatch := matchAnchorAt_found d0.toList p.a1h p.a1t p.url1
            p.url2 p.attrs2 p.body (buildDoc rest tail) p.q hpp.1
            hpp.2.2.1 (tracker_quote_block d0 hd p.q hpp.2.2.1)
            hpp.2.1 hpp.2.2.2.1 hpp.2.2.2.2.1 hpp.2.2.2.2.2.2
            hpp.2.2.2.2.2.1
          rw [show anchorOpenBody d0.toList p ++ '>' ::
              (p.body ++ '<' :: '/' :: 'a' :: '>' :: buildDoc rest tail)
            = ((p.a1h :: p.a1t) ++ ("href=".toList ++ p.q ::
                ((p.url1 ++ d0.toList ++ p.url2) ++ p.q :: p.attrs2)))
              ++ '>' :: (p.body ++ '<' :: '/' :: 'a' :: '>' ::
                buildDoc rest tail) from by rw [anchorOpenBody]]
          simp only [replaceAnchors, hmatch]
          rw [ih tail f2 (by omega) hlrest ht]
          have hdstep : dropDom d0 ((seg, d0, p) :: rest) tail
              = absorbSeg (seg ++ p.body) (dropDom d0 rest tail).1
                  (dropDom d0 rest tail).2 := by
            simp [dropDom]
          rw [hdstep, buildDoc_absorbSeg]
          simp
      | false =>
          have hmiss : containsCI (p.url1 ++ d0.toList ++ p.url2) d.toList
              = false := by
            rcases hcp.2.2.2 with he | hm
            · rw [he] at hdd; simp at hdd
            · exact hm
          have hmatch := matchAnchorAt_missD d.toList p.a1h p.a1t
            (p.url1 ++ d0.toList ++ p.url2) p.attrs2
            (p.body ++ '<' :: '/' :: 'a' :: '>' :: buildDoc rest tail) p.q
            hpp.2.2.1 (tracker_quote_block d hd p.q hpp.2.2.1)
            hpp.2.1 hpp.2.2.2.1 hpp.2.2.2.2.1 hpp.2.2.2.2.2.2 hmiss
          rw [show anchorOpenBody d0.toList p ++ '>' ::
              (p.body ++ '<' :: '/' :: 'a' :: '>' :: buildDoc rest tail)
            = ((p.a1h :: p.a1t) ++ ("href=".toList ++ p.q ::
                ((p.url1 ++ d0.toList ++ p.url2) ++ p.q :: p.attrs2)))
              ++ '>' :: (p.body ++ '<' :: '/' :: 'a' :: '>' ::
                buildDoc rest tail) from by rw [anchorOpenBody]]
          simp only [replaceAnchors, hmatch]
          rw [show ('a' :: (((p.a1h :: p.a1t) ++ ("href=".toList ++ p.q ::
              ((p.url1 ++ d0.toList ++ p.url2) ++ p.q :: p.attrs2)))
                ++ '>' :: (p.body ++ '<' :: '/' :: 'a' :: '>' ::
                  buildDoc rest tail)) : List Char)
            = ('a' :: (anchorOpenBody d0.toList p ++ '>' :: p.body))
                ++ '<' :: '/' :: 'a' :: '>' :: buildDoc rest tail from by
              rw [anchorOpenBody]; simp]
          rw [replaceAnchors_append_clean d.toList _
            (midseg_ltFree d0.toList p hcp.2.2.1) f2 _]
          obtain ⟨f4, hf4⟩ : ∃ f4, f2 -
              ('a' :: (anchorOpenBody d0.toList p ++ '>' :: p.body)).length
                = f4 + 1 :=
            ⟨f2 - ('a' :: (anchorOpenBody d0.toList p ++ '>' ::
              p.body)).length - 1, by omega⟩
          rw [hf4]
          simp only [replaceAnchors,
            matchAnchorAt_none_second d.toList '/'
              ('a' :: '>' :: buildDoc rest tail) (by decide)]
          rw [show ('/' :: 'a' :: '>' :: buildDoc rest tail : List Char)
            = ('/' :: 'a' :: '>' :: []) ++ buildDoc rest tail from rfl]
          rw [replaceAnchors_append_clean d.toList
            ('/' :: 'a' :: '>' :: []) (by decide) f4 (buildDoc rest tail)]
          rw [ih tail (f4 - ('/' :: 'a' :: '>' :: ([] : List Char)).length)
            (by simp; omega) hlrest ht]
          have hdstep : dropDom d ((seg, d0, p) :: rest) tail
              = ((seg, d0, p) :: (dropDom d rest tail).1,
                  (dropDom d rest tail).2) := by
            simp [dropDom, hdd]
          rw [hdstep]
          rw [show buildDoc ((seg, d0, p) :: (dropDom d rest tail).1)
              (dropDom d rest tail).2
            = seg ++ (anchorChunk d0.toList p ++
                buildDoc (dropDom d rest tail).1 (dropDom d rest tail).2)
              from rfl]
          simp [anchorChunk]

/-- The image-stripping pass leaves a well-formed anchor document
unchanged (there are no image tags in it). -/
theorem stripImgs_doc :
    ∀ (chunks : List (List Char × String × AnchorParts)) (tail : List Char)
      (fuel : Nat), (buildDoc chunks tail).length < fuel →
      (∀ ch ∈ chunks, ltFree ch.1 = true ∧
        partsOK ch.2.1.toList ch.2.2 = true) →
      ltFree tail = true →
      stripImgs fuel (buildDoc chunks tail) = buildDoc chunks tail := by
  intro chunks
  induction chunks with
  | nil =>
      intro tail fuel _ _ ht
      exact stripImgs_clean tail ht fuel
  | cons ch0 rest ih =>
      intro tail fuel hfuel hl ht
      rcases ch0 with ⟨seg, d0, p⟩
      have h0 := hl (seg, d0, p) (List.mem_cons_self _ _)
      dsimp only at h0
      have hlrest : ∀ ch ∈ rest, ltFree ch.1 = true ∧
          partsOK ch.2.1.toList ch.2.2 = true :=
        fun ch hch => hl ch (List.mem_cons_of_mem _ hch)
      have hlen : (buildDoc ((seg, d0, p) :: rest) tail).length
          = seg.length + ((anchorChunk d0.toList p).length
              + (buildDoc rest tail).length) := by
        simp [buildDoc]
      have hchl := anchorChunk_length d0.toList p
      have hL : ('a' :: (anchorOpenBody d0.toList p ++ '>' :: p.body)).length
          = (anchorOpenBody d0.toList p).length + p.body.length + 2 := by
        simp
        omega
      rw [hlen] at hfuel
      rw [show buildDoc ((seg, d0, p) :: rest) tail
        = seg ++ (anchorChunk d0.toList p ++ buildDoc rest tail) from rfl]
      rw [stripImgs_append_clean seg h0.1 fuel
        (anchorChunk d0.toList p ++ buildDoc rest tail)]
      obtain ⟨f2, hf2⟩ : ∃ f2, fuel - seg.length = f2 + 1 :=
        ⟨fuel - seg.length - 1, by omega⟩
      rw [hf2, anchorChunk_append d0.toList p (buildDoc rest tail)]
      simp only [stripImgs,
        imgTagStart_false_second 'a'
          (anchorOpenBody d0.toList p ++ '>' ::
            (p.body ++ '<' :: '/' :: 'a' :: '>' :: buildDoc rest tail))
          (by decide)]
      rw [show ('a' :: (anchorOpenBody d0.toList p ++ '>' ::
          (p.body ++ '<' :: '/' :: 'a' :: '>' :: buildDoc rest tail))
            : List Char)
        = ('a' :: (anchorOpenBody d0.toList p ++ '>' :: p.body))
            ++ '<' :: '/' :: 'a' :: '>' :: buildDoc rest tail from by
          simp]
      rw [stripImgs_append_clean _ (midseg_ltFree d0.toList p h0.2) f2 _]
      obtain ⟨f4, hf4⟩ : ∃ f4, f2 -
          ('a' :: (anchorOpenBody d0.toList p ++ '>' :: p.body)).length
            = f4 + 1 :=
        ⟨f2 - ('a' :: (anchorOpenBody d0.toList p ++ '>' ::
          p.body)).length - 1, by omega⟩
      rw [hf4]
      simp only [stripImgs,
        imgTagStart_false_second '/' ('a' :: '>' :: buildDoc rest tail)
          (by decide)]
      rw [show ('/' :: 'a' :: '>' :: buildDoc rest tail : List Char)
        = ('/' :: 'a' :: '>' :: []) ++ buildDoc rest tail from rfl]
      rw [stripImgs_append_clean ('/' :: 'a' :: '>' :: []) (by decide) f4
        (buildDoc rest tail)]
      rw [ih tail (f4 - ('/' :: 'a' :: '>' :: ([] : List Char)).length)
        (by simp; omega) hlrest ht]
      simp [anchorChunk]

/-- Folding the per-domain passes over a well-formed document unwraps
every anchor. -/
theorem foldPasses : ∀ (ds : List String),
    (∀ x ∈ ds, x ∈ trackerDomains) →
    ∀ (chunks : List (List Char × String × AnchorParts)) (tail : List Char),
      (∀ ch ∈ chunks, chunkOKb ds ch = true) → ltFree tail = true →
      ds.foldl (fun s dd => replaceAnchors dd.toList (s.length + 1) s)
        (buildDoc chunks tail) = unwrapDoc chunks tail := by
  intro ds
  induction ds with
  | nil =>
      intro _ chunks tail hch _
      cases chunks with
      | nil => rfl
      | cons ch0 rest =>
          have h0 := chunkOKb_parts (hch ch0 (List.mem_cons_self _ _))
          exact absurd h0.2.1 (List.not_mem_nil _)
  | cons d ds2 ih =>
      intro hds chunks tail hch ht
      simp only [List.foldl_cons]
      have hpass : ∀ ch ∈ chunks, chunkPass d ch = true := by
        intro ch hch0
        have h0 := chunkOKb_parts (hch ch hch0)
        have hmemT : ch.2.1 ∈ trackerDomains := hds ch.2.1 h0.2.1
        simp only [chunkPass, Bool.and_eq_true, Bool.or_eq_true,
          Bool.not_eq_true']
        refine ⟨⟨⟨h0.1, List.elem_iff.mpr hmemT⟩, h0.2.2.1⟩, ?_⟩
        by_cases he : ch.2.1 = d
        · exact Or.inl (beq_iff_eq.mpr he)
        · exact Or.inr (domClear_step h0.2.2.2 he).1
      rw [replaceAnchors_doc d (hds d (List.mem_cons_self _ _)) chunks tail
        ((buildDoc chunks tail).length + 1) (by omega) hpass ht]
      have hpres := dropDom_preserves d ds2 chunks tail hch ht
      rw [ih (fun x hx => hds x (List.mem_cons_of_mem _ hx)) _ _
        hpres.1 hpres.2]
      exact unwrapDoc_dropDom d chunks tail

theorem removeTracking_ne (html : String) (h : ¬ html = "") :
    removeTracking html = String.mk (trackerDomains.foldl
      (fun s d => replaceAnchors d.toList (s.length + 1) s)
      (stripImgs (html.toList.length + 1) html.toList)) := by
  rw [removeTracking, if_neg h]

/-- `removeTracking` replaces every anchor of a well-formed document by
its inner text, and nothing else. -/
theorem removeTracking_doc (chunks : List (List Char × String × AnchorParts))
    (tail : List Char)
    (hch : ∀ ch ∈ chunks, chunkOKb trackerDomains ch = true)
    (ht : ltFree tail = true) :
    removeTracking (String.mk (buildDoc chunks tail))
      = String.mk (unwrapDoc chunks tail) := by
  by_cases h0 : buildDoc chunks tail = []
  · cases chunks with
    | nil =>
        have ht0 : tail = [] := h0
        subst ht0
        rfl
    | cons ch0 rest =>
        exfalso
        rcases ch0 with ⟨seg, d0, p⟩
        simp [buildDoc, anchorChunk] at h0
  · have hne : ¬ String.mk (buildDoc chunks tail) = "" := by
      intro he
      exact h0 (congrArg String.data he)
    rw [removeTracking_ne _ hne]
    rw [show (String.mk (buildDoc chunks tail)).toList
      = buildDoc chunks tail from rfl]
    rw [stripImgs_doc chunks tail ((buildDoc chunks tail).length + 1)
      (by omega)
      (fun ch hch2 => ⟨(chunkOKb_parts (hch ch hch2)).1,
        (chunkOKb_parts (hch ch hch2)).2.2.1⟩) ht]
    rw [foldPasses trackerDomains (fun x hx => hx) chunks tail hch ht]

theorem replaceAllL_no_head (p : Char) (pat rep : List Char) :
    ∀ (l : List Char), (∀ c ∈ l, (c == p) = false) → ∀ (fuel : Nat),
      replaceAllL p pat rep fuel l = l := by
  intro l
  induction l with
  | nil => intro _ fuel; cases fuel <;> rfl
  | cons c rest ih =>
      intro h fuel
      cases fuel with
      | zero => rfl
      | succ f =>
          have hc : (c == p) = false := h c (List.mem_cons_self _ _)
          simp only [replaceAllL, hc, Bool.false_and]
          rw [if_neg (by simp)]
          rw [ih (fun x hx => h x (List.mem_cons_of_mem _ hx)) f]

theorem jsReplaceAll_amp_id (s pat rep : String) (ps : List Char)
    (hs : ampFree s.toList = true) (hp : pat.toList = '&' :: ps) :
    jsReplaceAll s pat rep = s := by
  simp only [jsReplaceAll, hp]
  rw [replaceAllL_no_head '&' ps rep.toList s.toList
    (fun c hc => by
      simp only [ampFree, List.all_eq_true] at hs
      simpa using hs c hc) _]
  rfl

/-- On text without `&`, entity decoding is the identity. -/
theorem decodeHtmlEntities_amp_id (s : String)
    (h : ampFree s.toList = true) : decodeHtmlEntities s = s := by
  by_cases h0 : s = ""
  · rw [decodeHtmlEntities, if_pos h0, h0]
  · rw [decodeHtmlEntities, if_neg h0]
    rw [jsReplaceAll_amp_id s "&lt;" "<" "lt;".toList h rfl]
    rw [jsReplaceAll_amp_id s "&gt;" ">" "gt;".toList h rfl]
    rw [jsReplaceAll_amp_id s "&amp;" "&" "amp;".toList h rfl]
    rw [jsReplaceAll_amp_id s "&quot;" "\"" "quot;".toList h rfl]
    rw [jsReplaceAll_amp_id s "&#39;" "\x27" "#39;".toList h rfl]
    rw [jsReplaceAll_amp_id s "&nbsp;" " " "nbsp;".toList h rfl]

theorem capStr_of_le (s : String) (n : Nat) (h : s.length ≤ n) :
    capStr s n = s := by
  rw [capStr, if_pos h]

/-- A concrete two-anchor document used to witness the universal anchor
clause: two different tracker domains, one double- and one single-quoted
href, extra attributes on both sides, and distinct inner texts. -/
def witnessChunks : List (List Char × String × AnchorParts) :=
  [("Intro ".toList, "doubleclick.net",
    ⟨' ', "class=x ".toList, '"', "https://ad.".toList,
      "/track?id=1".toList, " rel=nofollow".toList, "Click here".toList⟩),
   (" and ".toList, "jobadx.com",
    ⟨' ', "id=2 ".toList, '\x27', "http://x.".toList, "/y".toList,
      [], "Apply now".toList⟩)]

def witnessTail : List Char := " done".toList

/-- **C9 counterexample.** The claim says image tags are removed
entirely, which at input `"a<img src=1>b"` would give `"ab"`; but the
source replaces each image tag with a single space (index.js:255), so
the output is `"a b"`. -/
theorem normalizeContentHtmlClean_img_space :
    normalizeContentHtmlClean "a<img src=1>b" = "a b" ∧
    normalizeContentHtmlClean "a<img src=1>b" ≠ "ab" := ⟨rfl, by decide⟩

/-- **C9 (amended).** The output of `normalizeContentHtmlClean` never
exceeds the 120,000-character cap and truncation is an exact cut (the
output is a prefix of the cleaned text — no indicator appended); every
anchor tag whose href contains a configured tracker domain is replaced
by its inner text only — stated for every well-formed document built
from arbitrary clean segments and arbitrarily many anchors with
arbitrary extra attributes, either quote character, arbitrary URL parts
around the domain, and arbitrary inner texts (`removeTracking` maps
`buildDoc` to `unwrapDoc`, and so does the full
`normalizeContentHtmlClean` when no `&`-entity is present and the
result is under the cap); and image tags are each replaced by a single
space (entities are decoded first). -/
theorem normalizeContentHtmlClean_spec :
    (∀ s : String,
      (normalizeContentHtmlClean s).length ≤ MAX_HTML_CHARS) ∧
    (∀ s : String,
      List.IsPrefix (normalizeContentHtmlClean s).toList
        (removeTracking (decodeHtmlEntities s)).toList) ∧
    (∀ (chunks : List (List Char × String × AnchorParts))
        (tail : List Char),
      chunks.all (chunkOKb trackerDomains) = true → ltFree tail = true →
      removeTracking (String.mk (buildDoc chunks tail))
        = String.mk (unwrapDoc chunks tail)) ∧
    (∀ (chunks : List (List Char × String × AnchorParts))
        (tail : List Char),
      chunks.all (chunkOKb trackerDomains) = true → ltFree tail = true →
      ampFree (buildDoc chunks tail) = true →
      (unwrapDoc chunks tail).length ≤ MAX_HTML_CHARS →
      normalizeContentHtmlClean (String.mk (buildDoc chunks tail))
        = String.mk (unwrapDoc chunks tail)) ∧
    (trackerDomains.all (fun d =>
      normalizeContentHtmlClean
        ("<a href=\"https://" ++ d ++ "/x\">Apply here</a>") ==
        "Apply here") = true) ∧
    normalizeContentHtmlClean "x<IMG SRC=2>y" = "x y" ∧
    normalizeContentHtmlClean "&lt;p&gt;hi&lt;/p&gt;" = "<p>hi</p>" := by
  refine ⟨?_, ?_, ?_, ?_, rfl, rfl, rfl⟩
  · intro s
    rw [normalizeContentHtmlClean, capStr]
    by_cases h : (removeTracking (decodeHtmlEntities s)).length ≤
        MAX_HTML_CHARS
    · rw [if_pos h]
      exact h
    · rw [if_neg h]
      exact List.length_take_le _ _
  · intro s
    rw [normalizeContentHtmlClean, capStr]
    by_cases h : (removeTracking (decodeHtmlEntities s)).length ≤
        MAX_HTML_CHARS
    · rw [if_pos h]
    · rw [if_neg h]
      exact List.take_prefix _ _
  · intro chunks tail hall ht
    exact removeTracking_doc chunks tail
      (fun ch hch => List.all_eq_true.mp hall ch hch) ht
  · intro chunks tail hall ht hamp hlen
    rw [normalizeContentHtmlClean, decodeHtmlEntities_amp_id _ hamp,
      removeTracking_doc chunks tail
        (fun ch hch => List.all_eq_true.mp hall ch hch) ht]
    exact capStr_of_le _ _ hlen

/-- Witness for the universal anchor clause of
`normalizeContentHtmlClean_spec`: on a concrete document with two
anchors (different tracker domains, double- and single-quoted hrefs,
extra attributes, distinct bodies) both anchors are replaced by their
inner texts. -/
theorem normalizeContentHtmlClean_spec_witness :
    witnessChunks.all (chunkOKb trackerDomains) = true ∧
    ltFree witnessTail = true ∧
    ampFree (buildDoc witnessChunks witnessTail) = true ∧
    (unwrapDoc witnessChunks witnessTail).length ≤ MAX_HTML_CHARS ∧
    normalizeContentHtmlClean
        (String.mk (buildDoc witnessChunks witnessTail))
      = String.mk (unwrapDoc witnessChunks witnessTail) :=
  ⟨by decide, by decide, by decide, by decide,
    normalizeContentHtmlClean_spec.2.2.2.1 witnessChunks witnessTail
      (by decide) (by decide) (by decide) (by decide)⟩

/-! ## C10 — unknown feed sources keep nothing

Embeds `detectFeedSource` (index.js:113-118), `extractJobsFromFeedJson`
(index.js:352-363) and the pure counting core of `processOneFeed`
(index.js:532-573): the update-window/location filter over the raw jobs
followed by the create-if-new writes.  The Greenhouse-like shim keeps
the raw job's `id` unchanged for both sources, so the document id is
built directly from the raw job's id. -/

/-- A feed definition as loaded by `loadUserFeeds`. -/
structure Feed where
  id : String
  name : Option String := none
  url : String := ""
  source : Option String := none

/-- `detectFeedSource` (index.js:113-118). -/
def detectFeedSource (feedUrl : String) : String :=
  let u := jsToLower feedUrl
  if containsSub u "boards-api.greenhouse.io" then "greenhouse"
  else if containsSub u "api.ashbyhq.com/posting-api/job-board" then "ashby"
  else "unknown"

/-- `feed.source || detectFeedSource(feed.url)` (index.js:533). -/
def effectiveSource (feed : Feed) : String :=
  match feed.source with
  | some s => if s = "" then detectFeedSource feed.url else s
  | none => detectFeedSource feed.url

/-- Property read `json?.k` on an arbitrary JSON value. -/
def jget (j : JVal) (k : String) : JVal :=
  match j with
  | .obj fields => objGet fields k
  | _ => .null

/-- `extractJobsFromFeedJson` (index.js:352-363). -/
def extractJobsFromFeedJson (source : String) (json : JVal) : List JVal :=
  if source = "greenhouse" then
    match jget json "jobs" with
    | .arr l => l
    | _ => []
  else if source = "ashby" then
    match jget json "jobs" with
    | .arr l => l
    | _ =>
        match json with
        | .arr l => l
        | _ =>
            match jget (jget json "jobBoard") "jobs" with
            | .arr l => l
            | _ => []
  else
    match jget json "jobs" with
    | .arr l => l
    | _ =>
        match json with
        | .arr l => l
        | _ => []

/-- The pure counting core of `processOneFeed` (index.js:537-572): keep
the raw jobs passing the update-window and location filters, write each
through `createJobIfNew`, and return
`(processed, createdCount, final store)`. -/
def processOneFeedCounts (dateParse : String → Option Int)
    (excludes kws cities codes : List String) (source : String)
    (jobsRaw : List RawJob) (nowMs : Int) (companyKey : String)
    (store : Store RawJob) : Nat × Nat × Store RawJob :=
  let keptRaw := jobsRaw.filter (fun j =>
    isJobWithinUpdateWindow dateParse source j nowMs &&
      keepByLocation excludes kws cities codes source j)
  let folded := keptRaw.foldl (fun (acc : Nat × Store RawJob) j =>
    let r := createJobIfNew acc.2 (jobDocId companyKey j.id) j
    (acc.1 + (match r.2 with | .ok n => n | .error _ => 0), r.1))
    (0, store)
  (keptRaw.length, folded.1, folded.2)

/-- **C10.** A feed with no source tag whose URL contains neither API
host is classified `"unknown"`; for an unknown source the update-window
check is false for every raw job and every instant, so `processOneFeed`
keeps zero jobs, creates zero documents, and leaves the store untouched
— even though `extractJobsFromFeedJson` still extracts job arrays for
unknown sources. -/
theorem unknownSource_processes_nothing :
    (∀ feed : Feed,
      (feed.source = none ∨ feed.source = some "") →
      containsSub (jsToLower feed.url) "boards-api.greenhouse.io" = false →
      containsSub (jsToLower feed.url)
        "api.ashbyhq.com/posting-api/job-board" = false →
      effectiveSource feed = "unknown") ∧
    (∀ (dateParse : String → Option Int) (j : RawJob) (nowMs : Int),
      isJobWithinUpdateWindow dateParse "unknown" j nowMs = false) ∧
    (∀ (dateParse : String → Option Int)
        (excludes kws cities codes : List String) (jobsRaw : List RawJob)
        (nowMs : Int) (companyKey : String) (store : Store RawJob),
      processOneFeedCounts dateParse excludes kws cities codes "unknown"
        jobsRaw nowMs companyKey store = (0, 0, store)) ∧
    (∀ (l : List JVal) (extraFields : List (String × JVal)),
      extractJobsFromFeedJson "unknown"
        (.obj (("jobs", .arr l) :: extraFields)) = l ∧
      extractJobsFromFeedJson "unknown" (.arr l) = l) := by
  refine ⟨?_, ?_, ?_, ?_⟩
  · intro feed hsrc hg ha
    rcases hsrc with h | h <;>
      simp [effectiveSource, detectFeedSource, h, hg, ha]
  · intro dateParse j nowMs
    rfl
  · intro dateParse excludes kws cities codes jobsRaw nowMs companyKey store
    have hfil : jobsRaw.filter (fun j =>
        isJobWithinUpdateWindow dateParse "unknown" j nowMs &&
          keepByLocation excludes kws cities codes "unknown" j) = [] := by
      apply List.filter_eq_nil_iff.mpr
      intro j _
      simp [show isJobWithinUpdateWindow dateParse "unknown" j nowMs = false
        from rfl]
    simp [processOneFeedCounts, hfil]
  · intro l extraFields
    exact ⟨rfl, rfl⟩

/-- Witness for C10 at a concrete untagged feed. -/
theorem unknownSource_processes_nothing_witness :
    effectiveSource
      { id := "f1", url := "https://example.com/jobs.json" } = "unknown" :=
  unknownSource_processes_nothing.1
    { id := "f1", url := "https://example.com/jobs.json" }
    (Or.inl rfl) (by decide) (by decide)
